import Mathlib

/-!
PathOfBuilding launcher: script discovery and dispatch.

A shallow embedding of `src/Launcher.cpp`, `src/StringUtils.h` and `src/SafeHandle.h`.

* A byte of a file is a `Fin 256`; a value of the plain `char` type is an `Int`
  (what the C expression sees after integer promotion); a `std::string` is a list of
  such values; a `wchar_t` is a `Nat` code unit and a `std::wstring` a list of them.
* The character classification of the C runtime is a parameter (`CRuntime`), fixed on
  ASCII only.
* The operating system is a record of oracles (`Env`): the file system, the two
  special folders, the registry value, the module file name, the long path name.
* An operation whose C++ behaviour is undefined (reading outside a buffer, an
  iterator past the end, an ill-formed pointer range) yields `none`.
* Every path handed to `CreateFile` is appended to `LState.probes`, so that the
  order of the probes can be stated; `wWinMain` returns the log of its calls to the
  loader and the console (`Event`) with its exit status.
-/

set_option autoImplicit false

namespace Launcher

/-! ## Characters and strings -/

/-- One byte of a file on disk. -/
abbrev Byte := Fin 256

/-- A `std::string` (also a `char` buffer): the values of its `char`s, each an `Int`
(what a C expression sees after integer promotion). -/
abbrev CString := List Int

/-- A `std::wstring`: its `wchar_t` code units. -/
abbrev WString := List Nat

/-- The byte `b` seen through the plain `char` type, which is a signed 8-bit type on the
Windows targets the launcher is compiled for: bytes from `0x80` on are negative. -/
def toChar (b : Byte) : Int :=
  if b.val < 128 then (b.val : Int) else (b.val : Int) - 256

/-- Conversion `char → wchar_t` (16-bit unsigned) as performed by the iterator-range
constructor `std::wstring(first, last)` over a `std::string`. -/
def widen (c : Int) : Nat := (c % 65536).toNat

/-- A narrow literal: the code points of an ASCII string as `char` values. -/
def cstr (s : String) : CString := s.toList.map (fun c => (c.toNat : Int))

/-- A wide literal `L"..."`. -/
def wstr (s : String) : WString := s.toList.map Char.toNat

/-- The white-space characters of the "C" locale within ASCII:
space, `\t`, `\n`, `\v`, `\f`, `\r`. -/
def asciiSpace (c : Nat) : Bool := c == 32 || (9 ≤ c && c ≤ 13)

/-- The character classification of the C runtime (`<ctype.h>`, `<wctype.h>`), which is
not part of the repository.  The launcher never calls `setlocale`; on the ASCII range the
white-space classes are those of the "C" locale, outside of it nothing is assumed. -/
structure CRuntime where
  /-- The function `isspace(int)`. -/
  isspace : Int → Bool
  /-- The function `iswspace(wint_t)`. -/
  iswspace : Nat → Bool
  /-- The function `towlower(wint_t)`. -/
  towlower : Nat → Nat
  /-- The function `iswupper(wint_t)`. -/
  iswupper : Nat → Bool
  /-- On ASCII `isspace` is the "C" classification. -/
  isspace_ascii : ∀ c : Nat, c < 128 → isspace (c : Int) = asciiSpace c
  /-- On ASCII `iswspace` is the "C" classification. -/
  iswspace_ascii : ∀ c : Nat, c < 128 → iswspace c = asciiSpace c

/-- The "C" locale restricted to ASCII: nothing outside ASCII is white space or a letter. -/
def cRuntime : CRuntime where
  isspace := fun c => decide (0 ≤ c) && asciiSpace c.toNat
  iswspace := asciiSpace
  towlower := fun c => if 65 ≤ c ∧ c ≤ 90 then c + 32 else c
  iswupper := fun c => decide (65 ≤ c ∧ c ≤ 90)
  isspace_ascii := by intro c _; simp
  iswspace_ascii := by intro c _; rfl

/-! ## The file system and the launcher state -/

/-- What `CreateFile` followed by `ReadFile` finds at a path. -/
inductive FileState where
  /-- The call `CreateFile` returns `INVALID_HANDLE_VALUE`. -/
  | cannotOpen
  /-- The file opens but `ReadFile` fails. -/
  | readFails
  /-- The file opens and has these bytes. -/
  | contents (bytes : List Byte)
deriving DecidableEq

/-- The variables the discovery functions share by reference, and the log of probes. -/
structure LState where
  /-- The vector `commandLine`. -/
  commandLine : List WString
  /-- The string `firstLine`. -/
  firstLine : CString
  /-- Paths passed to `CreateFile` so far, oldest first. -/
  probes : List WString
deriving DecidableEq

/-! ## `IsValidLuaFile` (Launcher.cpp 32-78) -/

/-- The array `szHeader` after lines 42-48: 256 entries, zero-initialised, the first
`dwBytesRead ≤ 255` of them overwritten with the bytes read. -/
def readHeader (bytes : List Byte) : List Int :=
  (bytes.take 255).map toChar ++ List.replicate (256 - (bytes.take 255).length) 0

/-- The function `strchr(s, c)` for `c ≠ 0`: offset of the first `c` before the
terminating NUL. -/
def strchr : List Int → Int → Option Nat
  | [], _ => none
  | x :: xs, c =>
    if x = c then some 0
    else if x = 0 then none
    else (strchr xs c).map (· + 1)

/-- The loop condition of line 71. -/
def isTrailing (R : CRuntime) (c : Int) : Bool :=
  c == 10 || c == 13 || R.isspace c

/-- The loop of lines 71-74, `p` being the index of `szNewLinePos` in `szHeader`:
the index at which the loop stops, `none` if it steps before the start of the array. -/
def trimBack (R : CRuntime) (buf : List Int) : Nat → Option Nat
  | 0 => if isTrailing R (buf.getD 0 0) then none else some 0
  | p + 1 => if isTrailing R (buf.getD (p + 1) 0) then trimBack R buf p else some (p + 1)

/-- Lines 48-77 of `IsValidLuaFile`, on the bytes of the opened file: the returned flag
and the value of `firstLine` afterwards. -/
def checkHeader (R : CRuntime) (bytes : List Byte) (firstLine : CString) :
    Option (Bool × CString) :=
  let szHeader := readHeader bytes
  let cur : Nat :=
    if szHeader.getD 0 0 = 0xEF ∧ szHeader.getD 1 0 = 0xBB ∧ szHeader.getD 2 0 = 0xBF
    then 3 else 0
  if szHeader.getD cur 0 ≠ 35 ∨ szHeader.getD (cur + 1) 0 ≠ 64 then
    some (false, firstLine)
  else
    match strchr (szHeader.drop cur) 10 with
    | none => some (false, firstLine)
    | some k =>
      match trimBack R szHeader (cur + k) with
      | none => none
      | some e =>
        if e + 1 < cur then none
        else some (true, (szHeader.drop cur).take (e + 1 - cur))

/-- The function `IsValidLuaFile(path, firstLine)`. -/
def IsValidLuaFile (R : CRuntime) (fs : WString → FileState) (path : WString)
    (st : LState) : Option (Bool × LState) :=
  let st := { st with probes := st.probes ++ [path] }
  match fs path with
  | .cannotOpen => some (false, st)
  | .readFails => some (false, st)
  | .contents bytes =>
    match checkHeader R bytes st.firstLine with
    | none => none
    | some (ok, line) => some (ok, { st with firstLine := line })

/-! ## `InsertPath` and `FindLaunchLua` (Launcher.cpp 80-163) -/

/-- The function `InsertPath(commandLine, path)`.  The constant `USE_SHORT_PATHS` of
line 13 is `false`, so the `if constexpr` of line 82 keeps only line 101,
`commandLine.insert(begin() + 1, path)`; on an empty vector the iterator
`begin() + 1` is past the end. -/
def InsertPath (st : LState) (path : WString) : Option (Bool × LState) :=
  match st.commandLine with
  | [] => none
  | c0 :: rest => some (true, { st with commandLine := c0 :: path :: rest })

/-- The method `find_last_of(c)`: index of the last occurrence, `none` for `npos`. -/
def find_last_of : WString → Nat → Option Nat
  | [], _ => none
  | x :: xs, c =>
    match find_last_of xs c with
    | some i => some (i + 1)
    | none => if x = c then some 0 else none

/-- The static string `runtime` of line 138. -/
def runtime : WString := wstr "runtime"

/-- Lines 108-121: every `/` becomes `\`, then one trailing `\` is removed.
Reading `basePath[size - 1]` of an empty string is out of bounds. -/
def normalise (basePath : WString) : Option WString :=
  let basePath := basePath.map (fun c => if c = 47 then 92 else c)
  if basePath.length = 0 then none
  else if basePath.getD (basePath.length - 1) 0 = 92 then
    some (basePath.take (basePath.length - 1))
  else some basePath

/-- The function `FindLaunchLua(basePath, commandLine, firstLine)`. -/
def FindLaunchLua (R : CRuntime) (fs : WString → FileState) (basePath : WString)
    (st : LState) : Option (Bool × LState) :=
  match normalise basePath with
  | none => none
  | some basePath =>
    let launchPath := basePath ++ wstr "\\Launch.lua"
    match IsValidLuaFile R fs launchPath st with
    | none => none
    | some (true, st) => InsertPath st launchPath
    | some (false, st) =>
      let launchPath := basePath ++ wstr "\\src\\Launch.lua"
      match IsValidLuaFile R fs launchPath st with
      | none => none
      | some (true, st) => InsertPath st launchPath
      | some (false, st) =>
        if basePath.length > runtime.length + 1 then
          match find_last_of basePath 92 with
          | none => some (false, st)
          | some lastSlash =>
            let subDir := (basePath.drop (lastSlash + 1)).map R.towlower
            if subDir = runtime then
              let parentPath := basePath.take lastSlash
              let launchPath := parentPath ++ wstr "\\src\\Launch.lua"
              match IsValidLuaFile R fs launchPath st with
              | none => none
              | some (true, st) => InsertPath st launchPath
              | some (false, st) => some (false, st)
            else some (false, st)
        else some (false, st)

/-! ## `InsertLaunchLua` (Launcher.cpp 165-248) -/

/-- The constant `MAX_PATH` of `<windows.h>`. -/
def MAX_PATH : Nat := 260

/-- The operating system as seen by the launcher. -/
structure Env where
  /-- The file system. -/
  fs : WString → FileState
  /-- The call `GetLongPathName(path, wszLongPath, MAX_PATH)`: `none` when it returns 0,
  otherwise the string then found in `wszLongPath`. -/
  longPathName : WString → Option WString
  /-- The call `GetModuleFileName(nullptr, buf, MAX_PATH)`: `none` when it returns 0,
  otherwise the string in the buffer. -/
  moduleFileName : Option WString
  /-- The call `RegGetValue(.., L"InstallLocation", ..)`: `none` unless it returns
  `ERROR_SUCCESS`, otherwise the code units it stored in `wszValue` and `dwSize`. -/
  installLocation : Option (WString × Nat)
  /-- The call `SHGetSpecialFolderPath(.., CSIDL_APPDATA, ..)`. -/
  appData : Option WString
  /-- The call `SHGetSpecialFolderPath(.., CSIDL_COMMON_APPDATA, ..)`. -/
  commonAppData : Option WString

/-- The string `std::wstring(buf + a, buf + b)` for a `MAX_PATH` array whose leading
entries are `stored` and whose other entries are zero; `none` when `[a, b)` is not a
range inside the array. -/
def ptrRange (stored : WString) (a b : Int) : Option WString :=
  if 0 ≤ a ∧ a ≤ b ∧ b ≤ (MAX_PATH : Int) then
    some (((stored ++ List.replicate (MAX_PATH - stored.length) 0).drop a.toNat).take
      (b - a).toNat)
  else none

/-- Lines 186-192: the base path of the directory of the executable, when there is one. -/
def exeBase (env : Env) : Option WString :=
  match env.moduleFileName with
  | none => none
  | some wszModuleFilename =>
    match find_last_of (wszModuleFilename.takeWhile (· ≠ 0)) 92 with
    | none => none
    | some lastSlash => some (wszModuleFilename.take (lastSlash + 1))

/-- Lines 204-211: the base path built from the registry value; the outer `none` when
the block is skipped, the inner `none` when the pointer range of line 211 is ill-formed. -/
def registryBase (env : Env) : Option (Option WString) :=
  match env.installLocation with
  | none => none
  | some (wszValue, dwSize) =>
    if dwSize > 2 then
      if wszValue.getD 0 0 = 34 then
        some (ptrRange wszValue 1 ((dwSize / 2 : Nat) - 2))
      else some (ptrRange wszValue 0 ((dwSize / 2 : Nat) - 1))
    else none

/-- Lines 221-225: the base path under `%APPDATA%`. -/
def roamingBase (env : Env) : Option WString :=
  match env.appData with
  | none => none
  | some p => some (p.takeWhile (· ≠ 0) ++ wstr "\\Path of Building Community\\")

/-- Lines 235-239: the base path under `%PROGRAMDATA%`. -/
def commonBase (env : Env) : Option WString :=
  match env.commonAppData with
  | none => none
  | some p => some (p.takeWhile (· ≠ 0) ++ wstr "\\Path of Building\\")

/-- Lines 168-180: the check of argument 1 and its conversion to the long path. -/
def checkArgument (R : CRuntime) (env : Env) (st : LState) : Option (Bool × LState) :=
  if st.commandLine.length > 1 then
    match IsValidLuaFile R env.fs (st.commandLine.getD 1 []) st with
    | none => none
    | some (false, st) => some (false, st)
    | some (true, st) =>
      let arg := st.commandLine.getD 1 []
      if arg.length > 3 ∧ R.iswupper (arg.getD 0 0) = true ∧ arg.getD 1 0 = 58
          ∧ arg.getD 2 0 = 92 then
        match env.longPathName arg with
        | none => some (true, st)
        | some wszLongPath =>
          some (true, { st with commandLine := st.commandLine.set 1 wszLongPath })
      else some (true, st)
  else some (false, st)

/-- The function `InsertLaunchLua(commandLine, firstLine)`. -/
def InsertLaunchLua (R : CRuntime) (env : Env) (st : LState) : Option (Bool × LState) :=
  match checkArgument R env st with
  | none => none
  | some (true, st) => some (true, st)
  | some (false, st) =>
    -- Look in the same directory as the executable
    match (match exeBase env with
           | none => some (false, st)
           | some basePath => FindLaunchLua R env.fs basePath st) with
    | none => none
    | some (true, st) => some (true, st)
    | some (false, st) =>
      -- Check for the registry key left by the installer
      match (match registryBase env with
             | none => some (false, st)
             | some none => none
             | some (some basePath) => FindLaunchLua R env.fs basePath st) with
      | none => none
      | some (true, st) => some (true, st)
      | some (false, st) =>
        -- Look in the %APPDATA% folder
        match (match roamingBase env with
               | none => some (false, st)
               | some basePath => FindLaunchLua R env.fs basePath st) with
        | none => none
        | some (true, st) => some (true, st)
        | some (false, st) =>
          -- Look in the %PROGRAMDATA% folder
          match (match commonBase env with
                 | none => some (false, st)
                 | some basePath => FindLaunchLua R env.fs basePath st) with
          | none => none
          | some (true, st) => some (true, st)
          | some (false, st) => some (false, st)

/-! ## The module name (`wWinMain`, Launcher.cpp 305-311) and `ConvertToACP` (257-272) -/

/-- The wide `ltrim` of StringUtils.h 23-25. -/
def ltrim (R : CRuntime) (s : WString) : WString := s.dropWhile R.iswspace

/-- The wide `rtrim` of StringUtils.h 28-30. -/
def rtrim (R : CRuntime) (s : WString) : WString :=
  (s.reverse.dropWhile R.iswspace).reverse

/-- The wide `trim` of StringUtils.h 33-36. -/
def trim (R : CRuntime) (s : WString) : WString := rtrim R (ltrim R s)

/-- Offset of the first occurrence of `needle` in `hay`. -/
def findSub (needle : WString) : WString → Option Nat
  | [] => if needle = [] then some 0 else none
  | x :: xs =>
    if needle.isPrefixOf (x :: xs) then some 0 else (findSub needle xs).map (· + 1)

/-- The call `wcsstr(s.c_str(), needle)`: the search stops at the first NUL of `s`. -/
def wcsstr (s needle : WString) : Option Nat :=
  findSub needle (s.takeWhile (· ≠ 0))

/-- Lines 305-311 of `wWinMain`: the name of the DLL to load; `firstLine.begin() + 2`
is past the end when `firstLine` has fewer than two characters. -/
def dllNameOf (R : CRuntime) (firstLine : CString) : Option WString :=
  if firstLine.length < 2 then none
  else
    let dllName := trim R ((firstLine.drop 2).map widen)
    if wcsstr dllName (wstr ".dll") = none then some (dllName ++ wstr ".dll")
    else some dllName

/-- The two calls of `WideCharToMultiByte(CP_ACP, ...)` made for one argument. -/
structure AcpCodec where
  /-- With a null output buffer: the number of bytes required. -/
  size : WString → Nat
  /-- With an output buffer of the given size: the bytes written. -/
  write : WString → Nat → List Int

/-- Lines 265-267: the string `paramACP` built for one argument. -/
def convertParam (A : AcpCodec) (param : WString) : CString :=
  let dwACPSize := A.size param
  let written := (A.write param dwACPSize).take dwACPSize
  written ++ List.replicate (dwACPSize - written.length) 0

/-- The function `ConvertToACP(commandLine)`. -/
def ConvertToACP (A : AcpCodec) (commandLine : List WString) : List CString :=
  if commandLine.length > 0 then
    commandLine.foldl (fun commandLineACP param => commandLineACP ++ [convertParam A param]) []
  else []


/-! ## Observations and reference definitions used in the statements -/

/-- The directive line `IsValidLuaFile` extracts from a file with these bytes, `none`
when it rejects them. -/
def headerLine (R : CRuntime) (bytes : List Byte) : Option CString :=
  match checkHeader R bytes [] with
  | some (true, line) => some line
  | _ => none

/-- The file system as a validity oracle: the directive line of the script at `path`,
`none` when `IsValidLuaFile` rejects the path. -/
def validLine (R : CRuntime) (fs : List Nat → FileState) (path : WString) : Option CString :=
  match fs path with
  | .contents bytes => headerLine R bytes
  | _ => none

/-- Reference: a header with its optional leading UTF-8 byte-order mark removed. -/
def skipBOM (header : List Byte) : List Byte :=
  if header.take 3 = [0xEF, 0xBB, 0xBF] then header.drop 3 else header

/-- Reference: the text between the two-character marker and the first line feed, with
the trailing carriage returns, line feeds and white space removed. -/
def specDirectiveLine (R : CRuntime) (chars : List Int) : CString :=
  (((chars.drop 2).takeWhile (· ≠ 10)).reverse.dropWhile (isTrailing R)).reverse

/-- A file system given by a table of readable files; every other path cannot be opened. -/
def fsOf (files : List (WString × List Byte)) : WString → FileState :=
  fun path =>
    match files.lookup path with
    | some bytes => FileState.contents bytes
    | none => FileState.cannotOpen

/-- Reference: the normal form of a base path: every `/` replaced by `\`, then one
trailing `\` removed if there is one. -/
def specNorm (B : WString) : WString :=
  let u := B.map (fun c => if c = 47 then 92 else c)
  if u.getLast? = some 92 then u.dropLast else u

/-- Reference: the final backslash-separated segment of a path. -/
def finalSegment (N : WString) : WString :=
  (N.reverse.takeWhile (· ≠ 92)).reverse

/-- Reference: the path without its final segment and the backslash before it. -/
def parentOf (N : WString) : WString :=
  ((N.reverse.dropWhile (· ≠ 92)).drop 1).reverse

/-- Reference: the candidates of a normalised base as C5 words them, the third one
whenever the final segment is `runtime` up to case. -/
def claimedCandidates (R : CRuntime) (N : WString) : List WString :=
  [N ++ wstr "\\Launch.lua", N ++ wstr "\\src\\Launch.lua"]
    ++ (if (finalSegment N).map R.towlower = wstr "runtime"
        then [parentOf N ++ wstr "\\src\\Launch.lua"] else [])

/-- Reference: the candidates of a normalised base in probing order; the third one
needs a base longer than `\runtime`, that is a non-empty parent. -/
def candidates (R : CRuntime) (N : WString) : List WString :=
  [N ++ wstr "\\Launch.lua", N ++ wstr "\\src\\Launch.lua"]
    ++ (if 8 < N.length ∧ (finalSegment N).map R.towlower = wstr "runtime"
        then [parentOf N ++ wstr "\\src\\Launch.lua"] else [])

/-- Reference: the first path of a list that the oracle holds valid, with its
directive line. -/
def firstValid (valid : WString → Option CString) : List WString → Option (WString × CString)
  | [] => none
  | p :: ps =>
    match valid p with
    | some line => some (p, line)
    | none => firstValid valid ps

/-- Reference: the paths of a list probed by a first-match search: all of them up to
and including the first valid one. -/
def probed (valid : WString → Option CString) : List WString → List WString
  | [] => []
  | p :: ps =>
    match valid p with
    | some _ => [p]
    | none => p :: probed valid ps

/-- Reference: the outcome of probing the candidates of the base `B` in order from the
state `st`. -/
def locate (R : CRuntime) (fs : WString → FileState) (B : WString) (st : LState) :
    Option (Bool × LState) :=
  match firstValid (validLine R fs) (candidates R (specNorm B)) with
  | some (p, line) =>
    InsertPath { commandLine := st.commandLine, firstLine := line,
                 probes := st.probes ++ probed (validLine R fs) (candidates R (specNorm B)) } p
  | none =>
    some (false, { st with probes := st.probes ++ candidates R (specNorm B) })

/-- Reference: the candidate bases of `InsertLaunchLua` in priority order: the directory
of the executable, the registry `InstallLocation`, the roaming application-data
directory, the common application-data directory.  A base the operating system does
not provide is left out; `none` stands for a registry value from which no string can
be built. -/
def searchBases (env : Env) : List (Option WString) :=
  (exeBase env).toList.map some ++ (registryBase env).toList
    ++ (roamingBase env).toList.map some ++ (commonBase env).toList.map some

/-- Reference: probing a list of bases in order, the first base with a valid script
wins and the bases after it are not looked at. -/
def searchFrom (R : CRuntime) (fs : WString → FileState) :
    List (Option WString) → LState → Option (Bool × LState)
  | [], st => some (false, st)
  | none :: _, _ => none
  | some B :: bases, st =>
    match FindLaunchLua R fs B st with
    | none => none
    | some (true, st) => some (true, st)
    | some (false, st) => searchFrom R fs bases st

/-- Reference: a path that starts with an uppercase drive letter, a colon and a
backslash. -/
def hasDrivePrefix (R : CRuntime) (path : WString) : Bool :=
  match path with
  | a :: 58 :: 92 :: _ => R.iswupper a
  | _ => false

/-- Reference: every candidate path of a list of bases, in probing order. -/
def probesOf (R : CRuntime) : List WString → List WString
  | [] => []
  | B :: bases => candidates R (specNorm B) ++ probesOf R bases

/-! ## Sample inputs -/

/-- A script whose first line is `#@ lua`. -/
def luaScript : List Byte := [35, 64, 32, 108, 117, 97, 10]

/-- A development checkout: the only script is `C:\PoB\src\Launch.lua`. -/
def devFs : WString → FileState :=
  fsOf [(wstr "C:\\PoB\\src\\Launch.lua", luaScript)]

/-- An installation with a script in every base but the directory of the executable. -/
def installedFs : WString → FileState :=
  fsOf [(wstr "D:\\Games\\PoB\\Launch.lua", luaScript),
        (wstr "C:\\Users\\u\\AppData\\Roaming\\Path of Building Community\\Launch.lua",
          [35, 64, 114, 10]),
        (wstr "C:\\ProgramData\\Path of Building\\Launch.lua", [35, 64, 99, 10])]

/-- The environment of that installation; the registry value is quoted. -/
def installedEnv : Env where
  fs := installedFs
  longPathName := fun _ => none
  moduleFileName := some (wstr "C:\\bin\\launcher.exe")
  installLocation := some (wstr "\"D:\\Games\\PoB\"" ++ [0], 30)
  appData := some (wstr "C:\\Users\\u\\AppData\\Roaming")
  commonAppData := some (wstr "C:\\ProgramData")

/-! ## Narrow `trim` (StringUtils.h 6-20) -/

/-- The predicate of the narrow lambdas: the parameter is an `unsigned char`, so the
`char` is reduced modulo 256 before `isspace` sees it. -/
def isspaceUChar (R : CRuntime) (ch : Int) : Bool := R.isspace (ch % 256)

/-- The narrow `ltrim` of StringUtils.h 7-9 (the overload on `std::string`). -/
def ltrimA (R : CRuntime) (s : CString) : CString := s.dropWhile (isspaceUChar R)

/-- The narrow `rtrim` of StringUtils.h 12-14. -/
def rtrimA (R : CRuntime) (s : CString) : CString :=
  (s.reverse.dropWhile (isspaceUChar R)).reverse

/-- The narrow `trim` of StringUtils.h 17-20. -/
def trimA (R : CRuntime) (s : CString) : CString := rtrimA R (ltrimA R s)

/-! ## `SafeHandle` (SafeHandle.h) -/

/-- The constant `INVALID_HANDLE_VALUE`, that is `(HANDLE)-1`. -/
def INVALID_HANDLE_VALUE : Int := -1

/-- An object of class `SafeHandle`: its member `m_hHandle`. -/
structure SafeHandle where
  /-- The member `m_hHandle`. -/
  m_hHandle : Int
deriving DecidableEq

/-- The method `IsValid()`. -/
def SafeHandle.IsValid (s : SafeHandle) : Bool := s.m_hHandle != INVALID_HANDLE_VALUE

/-- The method `Get()`. -/
def SafeHandle.Get (s : SafeHandle) : Int := s.m_hHandle

/-- The method `Close()`: the object afterwards and the handles passed to `CloseHandle`. -/
def SafeHandle.Close (s : SafeHandle) : SafeHandle × List Int :=
  if s.IsValid then ({ m_hHandle := INVALID_HANDLE_VALUE }, [s.m_hHandle]) else (s, [])

/-- The move constructor `SafeHandle(SafeHandle &&o)`: the new object and `o` afterwards. -/
def SafeHandle.moveConstruct (o : SafeHandle) : SafeHandle × SafeHandle :=
  ({ m_hHandle := o.m_hHandle }, { m_hHandle := INVALID_HANDLE_VALUE })

/-- The destructor: the handles passed to `CloseHandle`. -/
def SafeHandle.destroy (s : SafeHandle) : List Int := s.Close.2

/-- One step in the life of a family of `SafeHandle` objects; objects are numbered in
the order of their construction. -/
inductive HandleOp where
  /-- A call of `Close()` on object `i`. -/
  | close (i : Nat)
  /-- A new object move-constructed from object `i`. -/
  | moveConstruct (i : Nat)
  /-- The destruction of object `i`. -/
  | destroy (i : Nat)
deriving DecidableEq

/-- The objects constructed so far (`none` once destroyed) and the log of the handles
passed to `CloseHandle`. -/
structure HandleWorld where
  /-- The objects, by number. -/
  objects : List (Option SafeHandle)
  /-- Handles passed to `CloseHandle`, oldest first. -/
  closed : List Int
deriving DecidableEq

/-- One operation; `none` when it names an object that does not exist or whose lifetime
has ended. -/
def HandleWorld.step (w : HandleWorld) : HandleOp → Option HandleWorld
  | .close i =>
    match w.objects.getD i none with
    | none => none
    | some s =>
      some { objects := w.objects.set i (some s.Close.1), closed := w.closed ++ s.Close.2 }
  | .moveConstruct i =>
    match w.objects.getD i none with
    | none => none
    | some o =>
      some { objects := w.objects.set i (some o.moveConstruct.2) ++ [some o.moveConstruct.1],
             closed := w.closed }
  | .destroy i =>
    match w.objects.getD i none with
    | none => none
    | some s => some { objects := w.objects.set i none, closed := w.closed ++ s.destroy }

/-- A sequence of operations. -/
def HandleWorld.run (w : HandleWorld) : List HandleOp → Option HandleWorld
  | [] => some w
  | op :: ops =>
    match w.step op with
    | none => none
    | some w' => w'.run ops

/-- Reference: the number of live objects for which `IsValid()` holds. -/
def validCount : List (Option SafeHandle) → Nat
  | [] => 0
  | none :: objects => validCount objects
  | some s :: objects => (if s.IsValid then 1 else 0) + validCount objects

/-! ## `isDevScript` and `wWinMain` (Launcher.cpp 250-255, 290-374) -/

/-- The local `folderName` of `isDevScript` (lines 251-252).  When `find_last_of` gives
`npos`, `substr(0, finalSlash)` is the whole string and `npos + 1` is 0.  Paths are
shorter than `2^31` characters, so that `int finalSlash` holds the index exactly. -/
def folderName (scriptPath : WString) : WString :=
  let dir :=
    match find_last_of scriptPath 92 with
    | none => scriptPath
    | some finalSlash => scriptPath.take finalSlash
  match find_last_of dir 92 with
  | none => dir
  | some i => dir.drop (i + 1)

/-- The function `isDevScript(scriptPath)`; its `wprintf` is logged by `wWinMain`. -/
def isDevScript (scriptPath : WString) : Bool := folderName scriptPath == wstr "src"

/-- Lines 348-352: the loop computing `dwTotalParamSize`. -/
def totalParamSize (commandLineACP : List CString) : Nat :=
  commandLineACP.foldl (fun dwTotalParamSize param => dwTotalParamSize + (param.length + 1)) 0

/-- The call `memcpy(buf + off, data, data.size())`; `none` when it writes past the end. -/
def memcpyAt (buf : List Int) (off : Nat) (data : List Int) : Option (List Int) :=
  if off + data.length ≤ buf.length then
    some (buf.take off ++ data ++ buf.drop (off + data.length))
  else none

/-- Lines 358-365: the loop filling `pParamBuf` and `ppParamList`; `cur` is the offset
of `pCurParamBufLoc` in the buffer and the list holds the offsets stored so far. -/
def fillParams : List CString → List Int → Nat → List Nat → Option (List Int × List Nat)
  | [], pParamBuf, _, ppParamList => some (pParamBuf, ppParamList)
  | param :: params, pParamBuf, cur, ppParamList =>
    match memcpyAt pParamBuf cur (param ++ [0]) with
    | none => none
    | some pParamBuf => fillParams params pParamBuf (cur + (param.length + 1)) (ppParamList ++ [cur])

/-- What the entry point of the DLL is called with: `argc`, the packed buffer and the
offsets in it that the entries of `argv` point to. -/
structure EntryArgs where
  /-- The argument count `dwNumParams`. -/
  argc : Nat
  /-- The contents of `pParamBuf`. -/
  buffer : List Int
  /-- The entries of `ppParamList`, as offsets into `pParamBuf`. -/
  argv : List Nat
deriving DecidableEq

/-- Lines 341-365 of `wWinMain`: conversion of the command line, removal of its first
element (`erase(begin())` on an empty vector is undefined) and packing.  The count is
passed as an `int`; a Windows command line holds fewer than `2^31` arguments. -/
def marshal (A : AcpCodec) (commandLine : List WString) : Option EntryArgs :=
  match ConvertToACP A commandLine with
  | [] => none
  | _ :: commandLineACP =>
    let dwTotalParamSize := totalParamSize commandLineACP
    match fillParams commandLineACP (List.replicate dwTotalParamSize 0) 0 [] with
    | none => none
    | some (pParamBuf, ppParamList) =>
      some { argc := commandLineACP.length, buffer := pParamBuf, argv := ppParamList }

/-- The calls `wWinMain` makes to the outside, in order. -/
inductive Event where
  /-- The body of `InitConsole` past its `initialized` test: `AllocConsole`, `freopen_s`. -/
  | allocConsole
  /-- A `wprintf` with this format string. -/
  | wprintf (format : String)
  /-- A call `LoadLibrary(name)`. -/
  | loadLibrary (name : WString)
  /-- A call `GetProcAddress(hDLL, symbol)`. -/
  | getProcAddress (hDLL : Nat) (symbol : String)
  /-- A call `SetConsoleTitle(title)`. -/
  | setConsoleTitle (title : WString)
  /-- The call `system("pause")`. -/
  | systemPause
  /-- The call of the entry point `RunLuaFile(dwNumParams, ppParamList.get())`. -/
  | runLuaFile (args : EntryArgs)
  /-- A call `FreeLibrary(hDLL)`. -/
  | freeLibrary (hDLL : Nat)
deriving DecidableEq

/-- The process environment of `wWinMain`. -/
structure Os where
  /-- The oracles of the script discovery. -/
  env : Env
  /-- The result of `ParseCommandLine()`. -/
  commandLine : List WString
  /-- The call `LoadLibrary(name)`: the module handle, `none` for `nullptr`. -/
  loadLibrary : WString → Option Nat
  /-- The call `GetProcAddress(hDLL, symbol)`: the exported function, here the status it
  returns for given arguments, `none` for `nullptr`. -/
  getProcAddress : Nat → String → Option (EntryArgs → Int)
  /-- The code page conversion. -/
  acp : AcpCodec

/-- The function `InitConsole()`, on its static flag `initialized` and the log. -/
def InitConsole (s : Bool × List Event) : Bool × List Event :=
  if s.1 then s else (true, s.2 ++ [Event.allocConsole])

/-- The function `wWinMain`: the exit status and the log of calls. -/
def wWinMain (R : CRuntime) (os : Os) : Option (Int × List Event) :=
  match InsertLaunchLua R os.env { commandLine := os.commandLine, firstLine := [], probes := [] } with
  | none => none
  | some (false, _) =>
    let s := InitConsole (false, [])
    some (1, s.2 ++ [Event.wprintf "ERROR: Could not find a valid launcher lua file."])
  | some (true, st) =>
    match dllNameOf R st.firstLine with
    | none => none
    | some dllName =>
      match st.commandLine[1]? with
      | none => none
      | some script =>
        let log := [Event.wprintf "Folder: %s"]
          ++ (if isDevScript script then [Event.loadLibrary (wstr "lua51.dll")] else [])
          ++ [Event.loadLibrary dllName]
        match os.loadLibrary dllName with
        | none =>
          let s := InitConsole (false, log)
          some (1, s.2 ++ [Event.wprintf "ERROR: Could not find dll named '%s'\n",
            Event.systemPause])
        | some hDLL =>
          let s : Bool × List Event := (false, log ++ [Event.getProcAddress hDLL "RunLuaFileAsWin"])
          let r : Option (EntryArgs → Int) × (Bool × List Event) :=
            match os.getProcAddress hDLL "RunLuaFileAsWin" with
            | some RunLuaFile => (some RunLuaFile, s)
            | none =>
              let s := InitConsole s
              (os.getProcAddress hDLL "RunLuaFileAsConsole",
                (s.1, s.2 ++ [Event.setConsoleTitle script,
                  Event.getProcAddress hDLL "RunLuaFileAsConsole"]))
          match r.1 with
          | none =>
            some (1, r.2.2
              ++ [Event.wprintf "ERROR: DLL '%s' does not appear to be a Path of Building dll.\n",
                  Event.freeLibrary hDLL])
          | some RunLuaFile =>
            match marshal os.acp st.commandLine with
            | none => none
            | some args =>
              some (RunLuaFile args, r.2.2 ++ [Event.runLuaFile args, Event.freeLibrary hDLL])

/-! ## Sample process environments -/

/-- A code page conversion that keeps ASCII code units and writes `?` for the others. -/
def asciiCodec : AcpCodec where
  size := fun s => s.length
  write := fun s n => (s.map (fun c => if c < 128 then (c : Int) else 63)).take n

/-- The installation `installedEnv` started as `exe --x`; `lua.dll` loads as module 7
and exports `RunLuaFileAsWin`, which returns 40 plus its argument count. -/
def sampleOs : Os where
  env := installedEnv
  commandLine := [wstr "exe", wstr "--x"]
  loadLibrary := fun name => if name = wstr "lua.dll" then some 7 else none
  getProcAddress := fun hDLL symbol =>
    if hDLL = 7 ∧ symbol = "RunLuaFileAsWin" then some (fun args => 40 + (args.argc : Int))
    else none
  acp := asciiCodec

/-! ## Reference definitions for the dispatcher -/

/-- Reference: the name of the directory that holds the script, one level above the
script file: the final segment of the path once the file name is removed.  A path
without any backslash is taken whole. -/
def containingFolder (p : WString) : WString :=
  finalSegment (if 92 ∈ p then parentOf p else p)

/-- Reference: the name of the directory two levels above the script file, the parent
of the directory that holds the script. -/
def grandparentFolder (p : WString) : WString :=
  finalSegment (parentOf (parentOf p))

/-- Reference: the packed buffer, every string followed by its terminating NUL. -/
def packed : List CString → List Int
  | [] => []
  | param :: params => param ++ 0 :: packed params

/-- Reference: the sum of `length + 1` over a list of strings. -/
def sizeSum (params : List CString) : Nat :=
  (params.map (fun param => param.length + 1)).sum

/-- Reference: the calls made by the dispatcher once the script is found, as a function
of the outcomes of the module load and of the two symbol look-ups, with the exit status. -/
def dispatch (os : Os) (script dllName : WString) (args : EntryArgs) : Int × List Event :=
  let pre := [Event.wprintf "Folder: %s"]
    ++ (if isDevScript script then [Event.loadLibrary (wstr "lua51.dll")] else [])
    ++ [Event.loadLibrary dllName]
  match os.loadLibrary dllName with
  | none =>
    (1, pre ++ [Event.allocConsole, Event.wprintf "ERROR: Could not find dll named '%s'\n",
      Event.systemPause])
  | some hDLL =>
    match os.getProcAddress hDLL "RunLuaFileAsWin" with
    | some RunLuaFile =>
      (RunLuaFile args, pre ++ [Event.getProcAddress hDLL "RunLuaFileAsWin",
        Event.runLuaFile args, Event.freeLibrary hDLL])
    | none =>
      match os.getProcAddress hDLL "RunLuaFileAsConsole" with
      | some RunLuaFile =>
        (RunLuaFile args, pre ++ [Event.getProcAddress hDLL "RunLuaFileAsWin",
          Event.allocConsole, Event.setConsoleTitle script,
          Event.getProcAddress hDLL "RunLuaFileAsConsole",
          Event.runLuaFile args, Event.freeLibrary hDLL])
      | none =>
        (1, pre ++ [Event.getProcAddress hDLL "RunLuaFileAsWin",
          Event.allocConsole, Event.setConsoleTitle script,
          Event.getProcAddress hDLL "RunLuaFileAsConsole",
          Event.wprintf "ERROR: DLL '%s' does not appear to be a Path of Building dll.\n",
          Event.freeLibrary hDLL])

/-- Reference: the calls of `FreeLibrary` in a log. -/
def freed (log : List Event) : List Nat :=
  log.filterMap (fun e => match e with
    | Event.freeLibrary hDLL => some hDLL
    | _ => none)

/-- Reference: the names passed to `LoadLibrary` in a log. -/
def loaded (log : List Event) : List WString :=
  log.filterMap (fun e => match e with
    | Event.loadLibrary name => some name
    | _ => none)

/-- Reference: the offsets of the strings in the packed buffer, the first one at `o`. -/
def offsetsFrom : Nat → List CString → List Nat
  | _, [] => []
  | o, param :: params => o :: offsetsFrom (o + (param.length + 1)) params

/-- The development checkout `devFs` started with the script as argument 1. -/
def devOs : Os where
  env := { installedEnv with fs := devFs }
  commandLine := [wstr "exe", wstr "C:\\PoB\\src\\Launch.lua"]
  loadLibrary := sampleOs.loadLibrary
  getProcAddress := sampleOs.getProcAddress
  acp := asciiCodec

/-- The installation `installedEnv` with another `InstallLocation` in the registry:
the code units stored in `wszValue` and the size reported in bytes. -/
def registryEnv (wszValue : WString) (dwSize : Nat) : Env :=
  { installedEnv with installLocation := some (wszValue, dwSize) }
/-! ## Lemmas on the header check -/

theorem toChar_bounds (b : Byte) : -128 ≤ toChar b ∧ toChar b ≤ 127 := by
  have := b.isLt
  by_cases h : b.val < 128
  · simp only [toChar, h, if_true]; omega
  · simp only [toChar, h, if_false]; omega

theorem toChar_eq_iff (b : Byte) (n : Nat) (hn : n < 128) : toChar b = (n : Int) ↔ b.val = n := by
  have := b.isLt
  by_cases h : b.val < 128
  · simp only [toChar, h, if_true]; omega
  · simp only [toChar, h, if_false]; omega

theorem toChar_eq_zero_iff (b : Byte) : toChar b = 0 ↔ b = 0 := by
  have h := toChar_eq_iff b 0 (by decide)
  simp only [Nat.cast_zero] at h
  rw [h]
  constructor
  · intro hb; exact Fin.ext hb
  · intro hb; simp [hb]

theorem readHeader_le (bytes : List Byte) (i : Nat) : (readHeader bytes).getD i 0 ≤ 127 := by
  unfold readHeader
  rw [List.getD_eq_getElem?_getD]
  cases h : (List.map toChar (List.take 255 bytes) ++
      List.replicate (256 - (List.take 255 bytes).length) 0)[i]? with
  | none => simp
  | some c =>
    have hm := List.getElem?_mem h
    simp only [Option.getD_some]
    rcases List.mem_append.1 hm with hm | hm
    · obtain ⟨b, _, rfl⟩ := List.mem_map.1 hm
      exact (toChar_bounds b).2
    · have := (List.mem_replicate.1 hm).2
      omega

theorem isTrailing_at (R : CRuntime) : isTrailing R 64 = false := by
  have h := R.isspace_ascii 64 (by decide)
  simp only [Nat.cast_ofNat] at h
  simp [isTrailing, h, asciiSpace]

theorem checkHeader_eq (R : CRuntime) (bytes : List Byte) (fl : CString) :
    checkHeader R bytes fl =
      if (readHeader bytes).getD 0 0 ≠ 35 ∨ (readHeader bytes).getD 1 0 ≠ 64 then
        some (false, fl)
      else
        match strchr (readHeader bytes) 10 with
        | none => some (false, fl)
        | some k =>
          match trimBack R (readHeader bytes) k with
          | none => none
          | some e => some (true, (readHeader bytes).take (e + 1)) := by
  have h0 : ¬ ((readHeader bytes).getD 0 0 = 0xEF ∧ (readHeader bytes).getD 1 0 = 0xBB
      ∧ (readHeader bytes).getD 2 0 = 0xBF) := by
    intro h
    have := readHeader_le bytes 0
    omega
  simp only [checkHeader, h0, if_false, List.drop_zero, Nat.zero_add, Nat.not_lt_zero,
    Nat.sub_zero]

theorem strchr_some {s : List Int} {c : Int} {k : Nat} (h : strchr s c = some k) :
    k < s.length ∧ s.getD k 0 = c ∧ ∀ i, i < k → s.getD i 0 ≠ c ∧ s.getD i 0 ≠ 0 := by
  induction s generalizing k with
  | nil => simp [strchr] at h
  | cons x xs ih =>
    unfold strchr at h
    by_cases hx : x = c
    · simp only [hx, if_true, Option.some.injEq] at h
      subst h
      simp [hx]
    · simp only [hx, if_false] at h
      by_cases hz : x = 0
      · simp [hz] at h
      · simp only [hz, if_false, Option.map_eq_some'] at h
        obtain ⟨j, hj, rfl⟩ := h
        obtain ⟨h1, h2, h3⟩ := ih hj
        refine ⟨by simpa using h1, by simpa using h2, ?_⟩
        intro i hi
        cases i with
        | zero => simp [hx, hz]
        | succ i => simpa using h3 i (by omega)

theorem strchr_none {s : List Int} {c : Int} (h : c ∉ s) : strchr s c = none := by
  induction s with
  | nil => rfl
  | cons x xs ih =>
    have hx : ¬ x = c := fun e => h (by simp [e])
    have hxs : c ∉ xs := fun e => h (by simp [e])
    unfold strchr
    simp only [hx, if_false]
    split
    · rfl
    · simp [ih hxs]

theorem trimBack_spec (R : CRuntime) (buf : List Int) (q : Nat)
    (hq : isTrailing R (buf.getD q 0) = false) :
    ∀ p, q ≤ p → ∃ e, trimBack R buf p = some e ∧ q ≤ e ∧ e ≤ p
      ∧ isTrailing R (buf.getD e 0) = false
      ∧ ∀ i, e < i → i ≤ p → isTrailing R (buf.getD i 0) = true := by
  intro p
  induction p with
  | zero =>
    intro hp
    have : q = 0 := by omega
    subst this
    refine ⟨0, by simp only [trimBack, hq, Bool.false_eq_true, if_false], le_refl _, le_refl _, hq, ?_⟩
    intro i h1 h2; omega
  | succ p ih =>
    intro hp
    by_cases ht : isTrailing R (buf.getD (p + 1) 0) = true
    · have hne : q ≠ p + 1 := by
        intro e; rw [e, ht] at hq; cases hq
      obtain ⟨e, h1, h2, h3, h4, h5⟩ := ih (by omega)
      refine ⟨e, by simp only [trimBack, ht, if_true, h1], h2, by omega, h4, ?_⟩
      intro i hi1 hi2
      by_cases hi : i = p + 1
      · rw [hi]; exact ht
      · exact h5 i hi1 (by omega)
    · have ht' : isTrailing R (buf.getD (p + 1) 0) = false := by simpa using ht
      refine ⟨p + 1, by simp only [trimBack, ht', Bool.false_eq_true, if_false], hp, le_refl _, ht', ?_⟩
      intro i h1 h2; omega

theorem mem_take_getD {M : List Int} {n : Nat} {c : Int} (h : c ∈ M.take n) :
    ∃ i, i < n ∧ M.getD i 0 = c := by
  obtain ⟨i, hi⟩ := List.mem_iff_getElem?.1 h
  rw [List.getElem?_take] at hi
  by_cases hin : i < n
  · rw [if_pos hin] at hi
    exact ⟨i, hin, by rw [List.getD_eq_getElem?_getD, hi]; rfl⟩
  · rw [if_neg hin] at hi; cases hi

theorem mem_drop_take_getD {M : List Int} {e n : Nat} {c : Int}
    (h : c ∈ (M.drop e).take n) : ∃ i, e ≤ i ∧ i < e + n ∧ M.getD i 0 = c := by
  obtain ⟨i, hin, hi⟩ := mem_take_getD h
  refine ⟨e + i, by omega, by omega, ?_⟩
  rw [List.getD_eq_getElem?_getD] at hi ⊢
  rw [List.getElem?_drop] at hi
  exact hi

theorem list_split3 (M : List Int) (e k : Nat) (hek : e < k) (hk : k < M.length) :
    M = M.take (e + 1) ++ ((M.drop (e + 1)).take (k - (e + 1)) ++ 
      M.getD k 0 :: M.drop (k + 1)) := by
  have h1 : M.drop (e + 1) = (M.drop (e + 1)).take (k - (e + 1)) ++
      (M.drop (e + 1)).drop (k - (e + 1)) := (List.take_append_drop _ _).symm
  have h2 : (M.drop (e + 1)).drop (k - (e + 1)) = M.drop k := by
    rw [List.drop_drop]; congr 1; omega
  have h3 : M.drop k = M.getD k 0 :: M.drop (k + 1) := by
    rw [List.drop_eq_getElem_cons hk, List.getD_eq_getElem _ _ hk]
  rw [← h3, ← h2, ← h1, List.take_append_drop]

theorem take_two (M : List Int) (h : 2 ≤ M.length) :
    M.take 2 = [M.getD 0 0, M.getD 1 0] := by
  match M, h with
  | a :: b :: rest, _ => rfl

theorem readHeader_getD_of_ne (bytes : List Byte) (i : Nat)
    (h : (readHeader bytes).getD i 0 ≠ 0) :
    i < ((bytes.take 255).map toChar).length
      ∧ ((bytes.take 255).map toChar).getD i 0 = (readHeader bytes).getD i 0 := by
  by_cases hi : i < ((bytes.take 255).map toChar).length
  · refine ⟨hi, ?_⟩
    unfold readHeader
    rw [List.getD_eq_getElem?_getD, List.getD_eq_getElem?_getD,
      List.getElem?_append_left hi]
  · exfalso
    apply h
    unfold readHeader
    rw [List.getD_eq_getElem?_getD, List.getElem?_append_right (by omega),
      List.getElem?_replicate]
    split <;> rfl

theorem readHeader_getD_lt (bytes : List Byte) (i : Nat)
    (hi : i < ((bytes.take 255).map toChar).length) :
    (readHeader bytes).getD i 0 = ((bytes.take 255).map toChar).getD i 0 := by
  unfold readHeader
  rw [List.getD_eq_getElem?_getD, List.getD_eq_getElem?_getD,
    List.getElem?_append_left hi]

/-- Shape of an accepted header: the characters read are `line ++ ws ++ '\n' :: rest`,
`line` starts with `#@`, holds neither a line feed nor a NUL and does not end in a
character of the trailing class, and `ws` is made of such characters. -/
theorem checkHeader_accept {R : CRuntime} {bytes : List Byte} {fl line : CString}
    (h : checkHeader R bytes fl = some (true, line)) :
    ∃ ws rest, (bytes.take 255).map toChar = line ++ (ws ++ 10 :: rest)
      ∧ line.take 2 = [35, 64]
      ∧ (∀ c ∈ line, c ≠ 10 ∧ c ≠ 0)
      ∧ (∀ c ∈ ws, c ≠ 10 ∧ isTrailing R c = true)
      ∧ ∃ l, line.getLast? = some l ∧ isTrailing R l = false := by
  rw [checkHeader_eq] at h
  by_cases hm : (readHeader bytes).getD 0 0 ≠ 35 ∨ (readHeader bytes).getD 1 0 ≠ 64
  · rw [if_pos hm] at h; cases h
  rw [if_neg hm] at h
  have hm0 : (readHeader bytes).getD 0 0 = 35 := by
    by_contra hc; exact hm (Or.inl hc)
  have hm1 : (readHeader bytes).getD 1 0 = 64 := by
    by_contra hc; exact hm (Or.inr hc)
  cases hs : strchr (readHeader bytes) 10 with
  | none => simp only [hs] at h; cases h
  | some k =>
    obtain ⟨_, hk2, hk3⟩ := strchr_some hs
    have hk : 1 ≤ k := by
      rcases Nat.eq_zero_or_pos k with h0 | h0
      · subst h0; rw [hm0] at hk2; cases hk2
      · exact h0
    obtain ⟨e, he1, he2, he3, he4, he5⟩ :=
      trimBack_spec R (readHeader bytes) 1 (by rw [hm1]; exact isTrailing_at R) k hk
    simp only [hs, he1, Option.some.injEq, Prod.mk.injEq, true_and] at h
    have hek : e < k := by
      rcases Nat.lt_or_ge e k with h0 | h0
      · exact h0
      · have : e = k := by omega
        rw [this, hk2] at he4
        simp [isTrailing] at he4
    set M := (bytes.take 255).map toChar with hM
    have hkM : k < M.length ∧ M.getD k 0 = (readHeader bytes).getD k 0 :=
      readHeader_getD_of_ne bytes k (by rw [hk2]; decide)
    have hkl : k < M.length := hkM.1
    have hget : ∀ i, i ≤ k → (readHeader bytes).getD i 0 = M.getD i 0 := by
      intro i hi
      exact readHeader_getD_lt bytes i (by show i < M.length; omega)
    have hline : line = M.take (e + 1) := by
      rw [← h]
      unfold readHeader
      rw [List.take_append_of_le_length (by show e + 1 ≤ M.length; omega)]
    refine ⟨(M.drop (e + 1)).take (k - (e + 1)), M.drop (k + 1), ?_, ?_, ?_, ?_, ?_⟩
    · have h3 := list_split3 M e k hek hkM.1
      rw [hkM.2, hk2] at h3
      rw [hline]; exact h3
    · rw [hline, List.take_take]
      have h2 : min 2 (e + 1) = 2 := by omega
      rw [h2]
      have hl : 2 ≤ M.length := by omega
      rw [take_two M hl, ← hget 0 (by omega), ← hget 1 (by omega), hm0, hm1]
    · intro c hc
      rw [hline] at hc
      obtain ⟨i, hi, hic⟩ := mem_take_getD hc
      have := hk3 i (by omega)
      rw [hget i (by omega), hic] at this
      exact this
    · intro c hc
      obtain ⟨i, hi1, hi2, hic⟩ := mem_drop_take_getD hc
      have h1 := hk3 i (by omega)
      have h2 := he5 i (by omega) (by omega)
      rw [hget i (by omega), hic] at h1 h2
      exact ⟨h1.1, h2⟩
    · refine ⟨M.getD e 0, ?_, ?_⟩
      · rw [hline, List.getLast?_eq_getElem?, List.length_take]
        have h2 : min (e + 1) M.length - 1 = e := by omega
        rw [h2, List.getElem?_take_of_succ, List.getD_eq_getElem _ _ (by omega),
          List.getElem?_eq_getElem]
      · rw [← hget e (by omega)]; exact he4

theorem takeWhile_append_stop {α : Type} {p : α → Bool} {l r : List α} {a : α}
    (hl : ∀ x ∈ l, p x = true) (ha : p a = false) :
    (l ++ a :: r).takeWhile p = l := by
  induction l with
  | nil => simp [List.takeWhile, ha]
  | cons x xs ih =>
    have hx := hl x (by simp)
    simp only [List.cons_append, List.takeWhile_cons, hx, if_true]
    rw [ih (fun y hy => hl y (by simp [hy]))]

/-- The header check always returns: it accepts with the line `headerLine` gives, or
rejects and leaves `firstLine` as it was. -/
theorem checkHeader_headerLine (R : CRuntime) (bytes : List Byte) (fl : CString) :
    checkHeader R bytes fl =
      some (match headerLine R bytes with
            | some line => (true, line)
            | none => (false, fl)) := by
  unfold headerLine
  rw [checkHeader_eq R bytes fl, checkHeader_eq R bytes []]
  by_cases hm : (readHeader bytes).getD 0 0 ≠ 35 ∨ (readHeader bytes).getD 1 0 ≠ 64
  · simp only [if_pos hm]
  · simp only [if_neg hm]
    have hm0 : (readHeader bytes).getD 0 0 = 35 := by
      by_contra hc; exact hm (Or.inl hc)
    have hm1 : (readHeader bytes).getD 1 0 = 64 := by
      by_contra hc; exact hm (Or.inr hc)
    cases hs : strchr (readHeader bytes) 10 with
    | none => rfl
    | some k =>
      obtain ⟨_, hk2, _⟩ := strchr_some hs
      have hk : 1 ≤ k := by
        rcases Nat.eq_zero_or_pos k with h0 | h0
        · subst h0; rw [hm0] at hk2; cases hk2
        · exact h0
      obtain ⟨e, he1, _⟩ :=
        trimBack_spec R (readHeader bytes) 1 (by rw [hm1]; exact isTrailing_at R) k hk
      simp only [he1]

theorem IsValidLuaFile_eq (R : CRuntime) (fs : WString → FileState) (path : WString)
    (st : LState) :
    IsValidLuaFile R fs path st =
      some (match validLine R fs path with
            | some line =>
              (true, { commandLine := st.commandLine, firstLine := line,
                       probes := st.probes ++ [path] })
            | none => (false, { st with probes := st.probes ++ [path] })) := by
  unfold IsValidLuaFile validLine
  cases hf : fs path with
  | cannotOpen => rfl
  | readFails => rfl
  | contents bytes =>
    simp only [checkHeader_headerLine]
    cases headerLine R bytes <;> rfl

theorem headerLine_some {R : CRuntime} {bytes : List Byte} {line : CString}
    (h : headerLine R bytes = some line) : checkHeader R bytes [] = some (true, line) := by
  rw [checkHeader_headerLine, h]

theorem map_toChar_take_two {B : List Byte} (h : (B.map toChar).take 2 = [35, 64]) :
    B.take 2 = [35, 64] := by
  match B, h with
  | [], h => simp at h
  | [_], h => simp at h
  | a :: b :: rest, h =>
    simp only [List.map_cons, List.take_succ_cons, List.take_zero, List.cons.injEq,
      and_true] at h ⊢
    have ha := (toChar_eq_iff a 35 (by decide)).1 (by simpa using h.1)
    have hb := (toChar_eq_iff b 64 (by decide)).1 (by simpa using h.2)
    exact ⟨Fin.ext ha, Fin.ext hb⟩

/-- An accepted file starts with the two marker bytes. -/
theorem headerLine_marker {R : CRuntime} {bytes : List Byte} {line : CString}
    (h : headerLine R bytes = some line) : (bytes.take 255).take 2 = [35, 64] := by
  obtain ⟨ws, rest, hM, h2, _⟩ := checkHeader_accept (headerLine_some h)
  apply map_toChar_take_two
  rw [hM]
  have hl : 2 ≤ line.length := by
    have := congrArg List.length h2
    simp only [List.length_take, List.length_cons, List.length_nil] at this
    omega
  rw [List.take_append_of_le_length hl, h2]

/-- An accepted file has a line feed among its first 255 bytes. -/
theorem headerLine_linefeed {R : CRuntime} {bytes : List Byte} {line : CString}
    (h : headerLine R bytes = some line) : (10 : Byte) ∈ bytes.take 255 := by
  obtain ⟨ws, rest, hM, _⟩ := checkHeader_accept (headerLine_some h)
  have hmem : (10 : Int) ∈ (bytes.take 255).map toChar := by
    rw [hM]; simp
  obtain ⟨b, hb, hb10⟩ := List.mem_map.1 hmem
  have := (toChar_eq_iff b 10 (by decide)).1 (by simpa using hb10)
  have hb' : b = 10 := Fin.ext this
  rw [← hb']; exact hb

/-! ## Claims on `IsValidLuaFile` -/

theorem dropWhile_append_all {α : Type} {p : α → Bool} {l r : List α}
    (hl : ∀ x ∈ l, p x = true) : (l ++ r).dropWhile p = r.dropWhile p := by
  induction l with
  | nil => rfl
  | cons x xs ih =>
    have hx := hl x (by simp)
    simp only [List.cons_append, List.dropWhile_cons, hx, if_true]
    exact ih (fun y hy => hl y (by simp [hy]))

theorem dropWhile_reverse_keep {α : Type} {p : α → Bool} {l : List α}
    (hl : ∀ x, l.getLast? = some x → p x = false) :
    (l.reverse.dropWhile p).reverse = l := by
  cases h : l.reverse with
  | nil => 
    have : l = [] := by simpa using h
    simp [this]
  | cons x xs =>
    have hlast : l.getLast? = some x := by
      rw [List.getLast?_eq_head?_reverse, h]; rfl
    have hx := hl x hlast
    rw [List.dropWhile_cons, hx]
    simp only [Bool.false_eq_true, if_false]
    rw [← h, List.reverse_reverse]

/-- C1: a file whose first 255 bytes, once an optional leading UTF-8 byte-order mark is
skipped, do not begin with the two bytes `#@` is rejected by `IsValidLuaFile`, which
returns false and leaves `firstLine` as it was. -/
theorem IsValidLuaFile_rejects_without_marker (R : CRuntime) (fs : WString → FileState)
    (path : WString) (st : LState) (bytes : List Byte)
    (hfile : fs path = FileState.contents bytes)
    (hmark : (skipBOM (bytes.take 255)).take 2 ≠ [35, 64]) :
    IsValidLuaFile R fs path st
      = some (false, { st with probes := st.probes ++ [path] }) := by
  rw [IsValidLuaFile_eq]
  have hv : validLine R fs path = headerLine R bytes := by
    simp only [validLine, hfile]
  rw [hv]
  cases hl : headerLine R bytes with
  | none => rfl
  | some line =>
    exfalso
    have h2 := headerLine_marker hl
    apply hmark
    have hb : ¬ (bytes.take 255).take 3 = [0xEF, 0xBB, 0xBF] := by
      intro h3
      have h4 := congrArg (List.take 2) h3
      rw [List.take_take] at h4
      have h5 : ((bytes.take 255).take 2) = [0xEF, 0xBB] := h4
      rw [h2] at h5
      revert h5; decide
    simp only [skipBOM, hb, if_false]
    exact h2

/-- Witness of C1: a file holding `hi` and a line feed is rejected. -/
theorem IsValidLuaFile_rejects_without_marker_witness :
    fsOf [(wstr "a.lua", [104, 105, 10])] (wstr "a.lua") = FileState.contents [104, 105, 10]
      ∧ (skipBOM (([104, 105, 10] : List Byte).take 255)).take 2 ≠ [35, 64]
      ∧ IsValidLuaFile cRuntime (fsOf [(wstr "a.lua", [104, 105, 10])]) (wstr "a.lua")
          ⟨[wstr "exe"], [], []⟩
        = some (false, ⟨[wstr "exe"], [], [] ++ [wstr "a.lua"]⟩) :=
  ⟨by decide, by decide,
    IsValidLuaFile_rejects_without_marker cRuntime (fsOf [(wstr "a.lua", [104, 105, 10])])
      (wstr "a.lua") ⟨[wstr "exe"], [], []⟩ [104, 105, 10] (by decide) (by decide)⟩

/-- C2 (the code does not do this): a file that begins with the byte-order mark
`EF BB BF` is rejected whatever follows, a `#@` marker and a line feed included, and
`firstLine` is left as it was.  Line 53 compares plain `char` values, which are at most
127, with `0xEF`, `0xBB`, `0xBF`, so the mark is never skipped. -/
theorem IsValidLuaFile_rejects_bom (R : CRuntime) (path : WString) (st : LState)
    (rest : List Byte) :
    IsValidLuaFile R (fun _ => FileState.contents (0xEF :: 0xBB :: 0xBF :: rest)) path st
      = some (false, { st with probes := st.probes ++ [path] }) := by
  rw [IsValidLuaFile_eq]
  have hv : validLine R (fun _ => FileState.contents (0xEF :: 0xBB :: 0xBF :: rest)) path
      = headerLine R (0xEF :: 0xBB :: 0xBF :: rest) := rfl
  rw [hv]
  cases hl : headerLine R (0xEF :: 0xBB :: 0xBF :: rest) with
  | none => rfl
  | some line =>
    exfalso
    have h2 := headerLine_marker hl
    simp only [List.take_succ_cons, List.take_zero, List.cons.injEq, and_true] at h2
    revert h2; decide

/-- C3 as stated fails: for the file `#@x` + line feed the line returned is `#@x`, marker
included, not the text `x` between the marker and the line feed. -/
theorem IsValidLuaFile_firstLine_keeps_marker :
    IsValidLuaFile cRuntime (fsOf [(wstr "a.lua", [35, 64, 120, 10])]) (wstr "a.lua")
        ⟨[wstr "exe"], [], []⟩
      = some (true, ⟨[wstr "exe"], cstr "#@x", [wstr "a.lua"]⟩)
    ∧ specDirectiveLine cRuntime (([35, 64, 120, 10] : List Byte).map toChar) = cstr "x"
    ∧ cstr "#@x" ≠ cstr "x" := by
  decide

/-- C3 amended: for every file `IsValidLuaFile` accepts, `firstLine` is the marker `#@`
followed by the text between the marker and the first line feed with its trailing
carriage returns and white space removed; it holds no line feed and its last character
is not a carriage return, a line feed or a white-space character. -/
theorem IsValidLuaFile_firstLine (R : CRuntime) (fs : WString → FileState)
    (path : WString) (st st' : LState) (bytes : List Byte)
    (hfile : fs path = FileState.contents bytes)
    (hacc : IsValidLuaFile R fs path st = some (true, st')) :
    st'.firstLine = 35 :: 64 :: specDirectiveLine R ((bytes.take 255).map toChar)
      ∧ (10 : Int) ∉ st'.firstLine
      ∧ ∃ last, st'.firstLine.getLast? = some last
          ∧ last ≠ 10 ∧ last ≠ 13 ∧ R.isspace last = false := by
  rw [IsValidLuaFile_eq] at hacc
  have hv : validLine R fs path = headerLine R bytes := by
    simp only [validLine, hfile]
  rw [hv] at hacc
  cases hl : headerLine R bytes with
  | none => rw [hl] at hacc; simp at hacc
  | some line =>
    rw [hl] at hacc
    simp only [Option.some.injEq, Prod.mk.injEq, true_and] at hacc
    subst hacc
    obtain ⟨ws, rest, hM, h2, h3, h4, last, h5, h6⟩ := checkHeader_accept (headerLine_some hl)
    simp only
    have hlast : last ≠ 10 ∧ last ≠ 13 ∧ R.isspace last = false := by
      simp only [isTrailing, Bool.or_eq_false_iff, beq_eq_false_iff_ne] at h6
      exact ⟨h6.1.1, h6.1.2, h6.2⟩
    refine ⟨?_, fun hc => (h3 10 hc).1 rfl, last, h5, hlast⟩
    match line, h2, hM, h3, h5 with
    | a :: b :: body, h2, hM, h3, h5 =>
      simp only [List.take_succ_cons, List.take_zero, List.cons.injEq, and_true] at h2
      obtain ⟨rfl, rfl⟩ := h2
      congr 2
      unfold specDirectiveLine
      rw [hM]
      have e1 : List.drop 2 (35 :: 64 :: body ++ (ws ++ 10 :: rest))
          = (body ++ ws) ++ 10 :: rest := by simp
      rw [e1, takeWhile_append_stop (p := fun c => decide (c ≠ 10))
        (by
          intro x hx
          rcases List.mem_append.1 hx with hx | hx
          · simpa using (h3 x (by simp [hx])).1
          · simpa using (h4 x hx).1)
        (by simp)]
      rw [List.reverse_append, dropWhile_append_all (by
        intro x hx
        exact (h4 x (List.mem_reverse.1 hx)).2)]
      symm
      apply dropWhile_reverse_keep
      intro x hx
      cases body with
      | nil => simp at hx
      | cons c cs =>
        have : (35 :: 64 :: c :: cs).getLast? = (c :: cs).getLast? := by
          simp [List.getLast?_cons_cons]
        rw [this, hx] at h5
        cases h5
        exact h6

/-- Witness of C3 amended: the file `#@ lua`, two blanks, CR LF, `x`. -/
theorem IsValidLuaFile_firstLine_witness :
    fsOf [(wstr "a.lua", [35, 64, 32, 108, 117, 97, 32, 32, 13, 10, 120])] (wstr "a.lua")
        = FileState.contents [35, 64, 32, 108, 117, 97, 32, 32, 13, 10, 120]
      ∧ IsValidLuaFile cRuntime
          (fsOf [(wstr "a.lua", [35, 64, 32, 108, 117, 97, 32, 32, 13, 10, 120])])
          (wstr "a.lua") ⟨[wstr "exe"], [], []⟩
        = some (true, ⟨[wstr "exe"], cstr "#@ lua", [wstr "a.lua"]⟩)
      ∧ (cstr "#@ lua" = 35 :: 64 :: specDirectiveLine cRuntime
            ((([35, 64, 32, 108, 117, 97, 32, 32, 13, 10, 120] : List Byte).take 255).map
              toChar)
          ∧ (10 : Int) ∉ cstr "#@ lua"
          ∧ ∃ last, (cstr "#@ lua").getLast? = some last
              ∧ last ≠ 10 ∧ last ≠ 13 ∧ cRuntime.isspace last = false) :=
  ⟨by decide, by decide,
    IsValidLuaFile_firstLine cRuntime
      (fsOf [(wstr "a.lua", [35, 64, 32, 108, 117, 97, 32, 32, 13, 10, 120])])
      (wstr "a.lua") ⟨[wstr "exe"], [], []⟩
      ⟨[wstr "exe"], cstr "#@ lua", [wstr "a.lua"]⟩
      [35, 64, 32, 108, 117, 97, 32, 32, 13, 10, 120] (by decide) (by decide)⟩

/-- C4: a file that starts with the marker `#@` and has no line-feed byte among its
first 255 bytes (whatever lies at offset 255 or later) is rejected by `IsValidLuaFile`,
which returns false and leaves `firstLine` unmodified. -/
theorem IsValidLuaFile_rejects_without_linefeed (R : CRuntime)
    (fs : WString → FileState) (path : WString) (st : LState) (rest : List Byte)
    (hfile : fs path = FileState.contents (35 :: 64 :: rest))
    (hlf : ∀ b ∈ (35 :: 64 :: rest : List Byte).take 255, b ≠ 10) :
    IsValidLuaFile R fs path st
      = some (false, { commandLine := st.commandLine, firstLine := st.firstLine,
                       probes := st.probes ++ [path] }) := by
  rw [IsValidLuaFile_eq]
  have hv : validLine R fs path = headerLine R (35 :: 64 :: rest) := by
    simp only [validLine, hfile]
  rw [hv]
  cases hl : headerLine R (35 :: 64 :: rest) with
  | none => rfl
  | some line => exact absurd rfl (hlf 10 (headerLine_linefeed hl))

/-- Witness of C4: the file `#@lua`, without any line feed, leaves `firstLine` at its
previous value `old`. -/
theorem IsValidLuaFile_rejects_without_linefeed_witness :
    fsOf [(wstr "a.lua", [35, 64, 108, 117, 97])] (wstr "a.lua")
        = FileState.contents (35 :: 64 :: [108, 117, 97])
      ∧ (∀ b ∈ (35 :: 64 :: [108, 117, 97] : List Byte).take 255, b ≠ 10)
      ∧ IsValidLuaFile cRuntime (fsOf [(wstr "a.lua", [35, 64, 108, 117, 97])])
          (wstr "a.lua") ⟨[wstr "exe"], cstr "old", []⟩
        = some (false, ⟨[wstr "exe"], cstr "old", [] ++ [wstr "a.lua"]⟩) :=
  ⟨by decide, by simp,
    IsValidLuaFile_rejects_without_linefeed cRuntime
      (fsOf [(wstr "a.lua", [35, 64, 108, 117, 97])]) (wstr "a.lua")
      ⟨[wstr "exe"], cstr "old", []⟩ [108, 117, 97] (by decide) (by simp)⟩

/-! ## Lemmas on `FindLaunchLua` -/

theorem dropWhile_append_stop {α : Type} {p : α → Bool} {l r : List α} {a : α}
    (hl : ∀ x ∈ l, p x = true) (ha : p a = false) :
    (l ++ a :: r).dropWhile p = a :: r := by
  induction l with
  | nil => simp [List.dropWhile, ha]
  | cons x xs ih =>
    have hx := hl x (by simp)
    simp only [List.cons_append, List.dropWhile_cons, hx, if_true]
    exact ih (fun y hy => hl y (by simp [hy]))

theorem find_last_of_none {s : WString} {c : Nat} (h : find_last_of s c = none) : c ∉ s := by
  induction s with
  | nil => simp
  | cons x xs ih =>
    unfold find_last_of at h
    cases hx : find_last_of xs c with
    | some i => simp [hx] at h
    | none =>
      simp only [hx] at h
      by_cases hxc : x = c
      · simp [hxc] at h
      · intro hm
        rcases List.mem_cons.1 hm with e | e
        · exact hxc e.symm
        · exact ih hx e

theorem find_last_of_some {s : WString} {c i : Nat} (h : find_last_of s c = some i) :
    s = s.take i ++ c :: s.drop (i + 1) ∧ c ∉ s.drop (i + 1) := by
  induction s generalizing i with
  | nil => simp [find_last_of] at h
  | cons x xs ih =>
    unfold find_last_of at h
    cases hx : find_last_of xs c with
    | some j =>
      simp only [hx, Option.some.injEq] at h
      subst h
      obtain ⟨h1, h2⟩ := ih hx
      refine ⟨?_, by simpa using h2⟩
      simp only [List.take_succ_cons, List.drop_succ_cons, List.cons_append]
      rw [← h1]
    | none =>
      simp only [hx] at h
      by_cases hxc : x = c
      · simp only [hxc, if_true, Option.some.injEq] at h
        subst h
        subst hxc
        exact ⟨by simp, by simpa using find_last_of_none hx⟩
      · simp [hxc] at h

theorem finalSegment_of_none {N : WString} (h : find_last_of N 92 = none) :
    finalSegment N = N := by
  have hn := find_last_of_none h
  unfold finalSegment
  rw [List.takeWhile_eq_self_iff.2, List.reverse_reverse]
  intro x hx
  have : x ≠ 92 := fun e => hn (e ▸ List.mem_reverse.1 hx)
  simpa using this

theorem finalSegment_of_some {N : WString} {i : Nat} (h : find_last_of N 92 = some i) :
    finalSegment N = N.drop (i + 1) ∧ parentOf N = N.take i := by
  obtain ⟨h1, h2⟩ := find_last_of_some h
  have hr : N.reverse = (N.drop (i + 1)).reverse ++ 92 :: (N.take i).reverse := by
    conv_lhs => rw [h1]
    simp
  have hall : ∀ x ∈ (N.drop (i + 1)).reverse, (fun c : Nat => decide (c ≠ 92)) x = true := by
    intro x hx
    have : x ≠ 92 := fun e => h2 (e ▸ List.mem_reverse.1 hx)
    simpa using this
  constructor
  · unfold finalSegment
    rw [hr, takeWhile_append_stop hall (by simp), List.reverse_reverse]
  · unfold parentOf
    rw [hr, dropWhile_append_stop hall (by simp)]
    simp

theorem runtime_length : runtime.length = 7 := by decide

theorem normalise_eq (B : WString) (hB : B ≠ []) : normalise B = some (specNorm B) := by
  unfold normalise specNorm
  have hne : B.map (fun c => if c = 47 then 92 else c) ≠ [] := by simpa using hB
  generalize B.map (fun c => if c = 47 then 92 else c) = u at hne
  have hlen : u.length ≠ 0 := by
    intro h; exact hne (List.length_eq_zero.1 h)
  have hlast : u.getLast? = some (u.getD (u.length - 1) 0) := by
    rw [List.getLast?_eq_getElem?, List.getD_eq_getElem _ _ (by omega),
      List.getElem?_eq_getElem]
  simp only [hlen, if_false, hlast, Option.some.injEq, List.dropLast_eq_take]
  split <;> rfl

/-- The third probe of `FindLaunchLua` (lines 139-161) is made exactly for the bases
`candidates` gives a third entry to. -/
theorem third_candidate (R : CRuntime) (N : WString) :
    (if 8 < N.length ∧ (finalSegment N).map R.towlower = wstr "runtime"
      then [parentOf N ++ wstr "\\src\\Launch.lua"] else [])
    = (if N.length > runtime.length + 1 then
        match find_last_of N 92 with
        | none => []
        | some lastSlash =>
          if (N.drop (lastSlash + 1)).map R.towlower = runtime
          then [N.take lastSlash ++ wstr "\\src\\Launch.lua"] else []
       else []) := by
  rw [runtime_length]
  by_cases hlen : 8 < N.length
  · have hlen' : N.length > 7 + 1 := hlen
    simp only [hlen, true_and, hlen', if_true]
    cases hf : find_last_of N 92 with
    | none =>
      simp only [finalSegment_of_none hf]
      rw [if_neg]
      intro h
      have := congrArg List.length h
      rw [List.length_map] at this
      have h7 : (wstr "runtime").length = 7 := by decide
      omega
    | some i =>
      obtain ⟨h1, h2⟩ := finalSegment_of_some hf
      simp only [h1, h2]
      rfl
  · have hlen' : ¬ N.length > 7 + 1 := hlen
    simp only [hlen, false_and, hlen', if_false]

theorem FindLaunchLua_eq (R : CRuntime) (fs : WString → FileState) (B : WString)
    (st : LState) (hB : B ≠ []) : FindLaunchLua R fs B st = locate R fs B st := by
  unfold FindLaunchLua locate candidates
  rw [normalise_eq B hB, third_candidate]
  generalize specNorm B = N
  simp only [IsValidLuaFile_eq]
  cases h1 : validLine R fs (N ++ wstr "\\Launch.lua") with
  | some l1 => simp [firstValid, probed, h1]
  | none =>
    cases h2 : validLine R fs (N ++ wstr "\\src\\Launch.lua") with
    | some l2 => simp [firstValid, probed, h1, h2]
    | none =>
      by_cases hlen : N.length > runtime.length + 1
      · simp only [hlen, if_true]
        cases hf : find_last_of N 92 with
        | none => simp [firstValid, probed, h1, h2]
        | some i =>
          by_cases hsub : (N.drop (i + 1)).map R.towlower = runtime
          · simp only [hsub, if_true]
            cases h3 : validLine R fs (N.take i ++ wstr "\\src\\Launch.lua") with
            | some l3 => simp [firstValid, probed, h1, h2, h3]
            | none => simp [firstValid, probed, h1, h2, h3]
          · simp only [hsub, if_false]
            simp [firstValid, probed, h1, h2]
      · simp [firstValid, probed, h1, h2, hlen]

/-! ## Lemmas on `InsertLaunchLua` -/

theorem searchFrom_step (R : CRuntime) (fs : WString → FileState) (o : Option WString)
    (bases : List (Option WString)) (st : LState) :
    searchFrom R fs (o.toList.map some ++ bases) st =
      match (match o with
             | none => some (false, st)
             | some B => FindLaunchLua R fs B st) with
      | none => none
      | some (true, st) => some (true, st)
      | some (false, st) => searchFrom R fs bases st := by
  cases o with
  | none => rfl
  | some B => rfl

theorem searchFrom_step_registry (R : CRuntime) (fs : WString → FileState)
    (o : Option (Option WString)) (bases : List (Option WString)) (st : LState) :
    searchFrom R fs (o.toList ++ bases) st =
      match (match o with
             | none => some (false, st)
             | some none => none
             | some (some B) => FindLaunchLua R fs B st) with
      | none => none
      | some (true, st) => some (true, st)
      | some (false, st) => searchFrom R fs bases st := by
  cases o with
  | none => rfl
  | some ob =>
    cases ob with
    | none => rfl
    | some B => rfl

/-- Once argument 1 has been turned down, `InsertLaunchLua` is the first-match search
over `searchBases`. -/
theorem InsertLaunchLua_search (R : CRuntime) (env : Env) (st st1 : LState)
    (harg : checkArgument R env st = some (false, st1)) :
    InsertLaunchLua R env st = searchFrom R env.fs (searchBases env) st1 := by
  have e : searchBases env = (exeBase env).toList.map some ++ ((registryBase env).toList
      ++ ((roamingBase env).toList.map some ++ ((commonBase env).toList.map some ++ []))) := by
    simp [searchBases]
  rw [e]
  unfold InsertLaunchLua
  simp only [harg, searchFrom_step, searchFrom_step_registry, searchFrom]

theorem firstValid_some {valid : WString → Option CString} {l : List WString}
    {p : WString} {line : CString} (h : firstValid valid l = some (p, line)) :
    p ∈ l ∧ valid p = some line := by
  induction l with
  | nil => simp [firstValid] at h
  | cons x xs ih =>
    unfold firstValid at h
    cases hx : valid x with
    | some l' =>
      simp only [hx, Option.some.injEq, Prod.mk.injEq] at h
      obtain ⟨rfl, rfl⟩ := h
      exact ⟨by simp, hx⟩
    | none =>
      simp only [hx] at h
      obtain ⟨h1, h2⟩ := ih h
      exact ⟨by simp [h1], h2⟩

theorem firstValid_none {valid : WString → Option CString} {l : List WString} :
    firstValid valid l = none ↔ ∀ p ∈ l, valid p = none := by
  induction l with
  | nil => simp [firstValid]
  | cons x xs ih =>
    unfold firstValid
    cases hx : valid x with
    | some l' =>
      simp only [false_iff, reduceCtorEq]
      intro h
      have := h x (by simp)
      rw [hx] at this
      cases this
    | none =>
      simp only [ih, List.mem_cons, forall_eq_or_imp, hx, true_and]

/-- A base without a valid candidate is probed in full and changes nothing else. -/
theorem FindLaunchLua_fail (R : CRuntime) (fs : WString → FileState) (B : WString)
    (st : LState) (hB : B ≠ [])
    (hv : firstValid (validLine R fs) (candidates R (specNorm B)) = none) :
    FindLaunchLua R fs B st
      = some (false, { st with probes := st.probes ++ candidates R (specNorm B) }) := by
  rw [FindLaunchLua_eq R fs B st hB, locate, hv]

/-- A base with a valid candidate gets its first valid candidate inserted. -/
theorem FindLaunchLua_hit (R : CRuntime) (fs : WString → FileState) (B : WString)
    (st : LState) (c0 : WString) (rest : List WString) (p : WString) (line : CString)
    (hB : B ≠ []) (hc : st.commandLine = c0 :: rest)
    (hv : firstValid (validLine R fs) (candidates R (specNorm B)) = some (p, line)) :
    FindLaunchLua R fs B st
      = some (true, { commandLine := c0 :: p :: rest, firstLine := line,
                      probes := st.probes
                        ++ probed (validLine R fs) (candidates R (specNorm B)) }) := by
  rw [FindLaunchLua_eq R fs B st hB, locate, hv]
  simp only [InsertPath, hc]

theorem searchFrom_first (R : CRuntime) (fs : WString → FileState) (pre : List WString)
    (B : WString) (post : List (Option WString)) (st : LState) (c0 : WString)
    (rest : List WString) (p : WString) (line : CString)
    (hpre : ∀ x ∈ pre, x ≠ [] ∧ firstValid (validLine R fs) (candidates R (specNorm x)) = none)
    (hB : B ≠ []) (hc : st.commandLine = c0 :: rest)
    (hv : firstValid (validLine R fs) (candidates R (specNorm B)) = some (p, line)) :
    searchFrom R fs (pre.map some ++ some B :: post) st
      = some (true, { commandLine := c0 :: p :: rest, firstLine := line,
                      probes := st.probes ++ probesOf R pre
                        ++ probed (validLine R fs) (candidates R (specNorm B)) }) := by
  induction pre generalizing st with
  | nil =>
    simp only [List.map_nil, List.nil_append, searchFrom, probesOf, List.append_nil]
    rw [FindLaunchLua_hit R fs B st c0 rest p line hB hc hv]
  | cons x xs ih =>
    obtain ⟨hx1, hx2⟩ := hpre x (by simp)
    have e : (x :: xs).map some ++ some B :: post
        = some x :: (xs.map some ++ some B :: post) := rfl
    rw [e, searchFrom, FindLaunchLua_fail R fs x st hx1 hx2]
    simp only
    rw [ih { st with probes := st.probes ++ candidates R (specNorm x) }
      (fun y hy => hpre y (by simp [hy])) hc]
    simp only [probesOf, List.append_assoc]

theorem checkArgument_invalid (R : CRuntime) (env : Env) (st : LState) (c0 : WString)
    (rest : List WString) (hc : st.commandLine = c0 :: rest)
    (harg : ∀ a, rest.head? = some a → validLine R env.fs a = none) :
    checkArgument R env st
      = some (false, { st with probes := st.probes ++ rest.head?.toList }) := by
  unfold checkArgument
  cases rest with
  | nil =>
    cases st
    simp_all
  | cons a rest' =>
    have ha := harg a rfl
    simp [hc, IsValidLuaFile_eq, ha]

/-! ## Claims on `FindLaunchLua`, `InsertPath` and `InsertLaunchLua` -/

/-- C5 as stated fails: for the base `\runtime`, whose final segment is `runtime` and
whose parent is the root, the candidate `\src\Launch.lua` is valid and is the first valid
one of the three, yet `FindLaunchLua` probes only the first two and returns false. -/
theorem FindLaunchLua_skips_root_parent :
    specNorm (wstr "\\runtime") = wstr "\\runtime"
    ∧ claimedCandidates cRuntime (wstr "\\runtime")
        = [wstr "\\runtime\\Launch.lua", wstr "\\runtime\\src\\Launch.lua",
           wstr "\\src\\Launch.lua"]
    ∧ firstValid (validLine cRuntime (fsOf [(wstr "\\src\\Launch.lua", [35, 64, 120, 10])]))
          (claimedCandidates cRuntime (wstr "\\runtime"))
        = some (wstr "\\src\\Launch.lua", cstr "#@x")
    ∧ FindLaunchLua cRuntime (fsOf [(wstr "\\src\\Launch.lua", [35, 64, 120, 10])])
          (wstr "\\runtime") ⟨[wstr "exe"], [], []⟩
        = some (false, ⟨[wstr "exe"], [],
            [wstr "\\runtime\\Launch.lua", wstr "\\runtime\\src\\Launch.lua"]⟩) := by
  decide

/-- C5 amended: for a non-empty base `B` with normal form `N` and a non-empty command
line, `FindLaunchLua` probes in order `N\Launch.lua`, `N\src\Launch.lua` and, when `N`
is longer than 8 characters and its final segment is `runtime` up to case,
`parent(N)\src\Launch.lua`; it stops at the first valid one, inserts it and returns its
directive line; it returns false exactly when none of these candidates is valid. -/
theorem FindLaunchLua_first_valid (R : CRuntime) (fs : WString → FileState)
    (B : WString) (st : LState) (c0 : WString) (rest : List WString)
    (hB : B ≠ []) (hc : st.commandLine = c0 :: rest) :
    FindLaunchLua R fs B st
      = (match firstValid (validLine R fs) (candidates R (specNorm B)) with
         | some (p, line) =>
           some (true, { commandLine := c0 :: p :: rest, firstLine := line,
                         probes := st.probes
                           ++ probed (validLine R fs) (candidates R (specNorm B)) })
         | none =>
           some (false, { commandLine := c0 :: rest, firstLine := st.firstLine,
                          probes := st.probes ++ candidates R (specNorm B) }))
    ∧ ((∃ st', FindLaunchLua R fs B st = some (false, st'))
        ↔ ∀ p ∈ candidates R (specNorm B), validLine R fs p = none) := by
  have key : FindLaunchLua R fs B st
      = (match firstValid (validLine R fs) (candidates R (specNorm B)) with
         | some (p, line) =>
           some (true, { commandLine := c0 :: p :: rest, firstLine := line,
                         probes := st.probes
                           ++ probed (validLine R fs) (candidates R (specNorm B)) })
         | none =>
           some (false, { commandLine := c0 :: rest, firstLine := st.firstLine,
                          probes := st.probes ++ candidates R (specNorm B) })) := by
    cases hv : firstValid (validLine R fs) (candidates R (specNorm B)) with
    | none =>
      rw [FindLaunchLua_fail R fs B st hB hv, ← hc]
    | some r =>
      obtain ⟨p, line⟩ := r
      rw [FindLaunchLua_hit R fs B st c0 rest p line hB hc hv]
  refine ⟨key, ?_⟩
  rw [key, ← firstValid_none]
  cases hv : firstValid (validLine R fs) (candidates R (specNorm B)) with
  | none => simp
  | some r => simp

/-- Witness of C5 amended: from the base `C:/PoB/Runtime/` the script of the parent's
`src` directory is found by the third probe. -/
theorem FindLaunchLua_first_valid_witness :
    wstr "C:/PoB/Runtime/" ≠ []
    ∧ (⟨[wstr "exe", wstr "--x"], [], []⟩ : LState).commandLine = wstr "exe" :: [wstr "--x"]
    ∧ (FindLaunchLua cRuntime devFs (wstr "C:/PoB/Runtime/") ⟨[wstr "exe", wstr "--x"], [], []⟩
        = some (true, ⟨[wstr "exe", wstr "C:\\PoB\\src\\Launch.lua", wstr "--x"], cstr "#@ lua",
            [wstr "C:\\PoB\\Runtime\\Launch.lua", wstr "C:\\PoB\\Runtime\\src\\Launch.lua",
             wstr "C:\\PoB\\src\\Launch.lua"]⟩)
      ∧ ((∃ st', FindLaunchLua cRuntime devFs (wstr "C:/PoB/Runtime/")
            ⟨[wstr "exe", wstr "--x"], [], []⟩ = some (false, st'))
          ↔ ∀ p ∈ candidates cRuntime (specNorm (wstr "C:/PoB/Runtime/")),
              validLine cRuntime devFs p = none)) :=
  ⟨by decide, rfl,
    FindLaunchLua_first_valid cRuntime devFs (wstr "C:/PoB/Runtime/")
      ⟨[wstr "exe", wstr "--x"], [], []⟩ (wstr "exe") [wstr "--x"] (by decide) rfl⟩

/-- C6: when argument 1 is absent or is not a valid script, `InsertLaunchLua` probes the
bases in the order executable directory, registry, roaming application data, common
application data: if the bases `pre` have no valid candidate and the next base `B` has
one, the path inserted and the directive line are those of the first valid candidate of
`B`, and the paths opened are argument 1 (if present), the candidates of `pre` and those
of `B` up to the valid one.  The bases `post` after `B` are arbitrary and none of their
paths is opened. -/
theorem InsertLaunchLua_first_base_wins (R : CRuntime) (env : Env) (st : LState)
    (c0 : WString) (rest : List WString) (pre : List WString) (B : WString)
    (post : List (Option WString)) (p : WString) (line : CString)
    (hc : st.commandLine = c0 :: rest)
    (harg : ∀ a, rest.head? = some a → validLine R env.fs a = none)
    (hbases : searchBases env = pre.map some ++ some B :: post)
    (hpre : ∀ x ∈ pre, x ≠ []
      ∧ firstValid (validLine R env.fs) (candidates R (specNorm x)) = none)
    (hB : B ≠ [])
    (hv : firstValid (validLine R env.fs) (candidates R (specNorm B)) = some (p, line)) :
    InsertLaunchLua R env st
      = some (true, { commandLine := c0 :: p :: rest, firstLine := line,
                      probes := st.probes ++ rest.head?.toList ++ probesOf R pre
                        ++ probed (validLine R env.fs) (candidates R (specNorm B)) }) := by
  rw [InsertLaunchLua_search R env st _ (checkArgument_invalid R env st c0 rest hc harg),
    hbases]
  exact searchFrom_first R env.fs pre B post _ c0 rest p line hpre hB hc hv

/-- Witness of C6: no script beside the executable, valid scripts in the registry base
and in both application-data bases: the registry base wins. -/
theorem InsertLaunchLua_first_base_wins_witness :
    (⟨[wstr "exe"], [], []⟩ : LState).commandLine = wstr "exe" :: []
    ∧ (∀ a, ([] : List WString).head? = some a → validLine cRuntime installedEnv.fs a = none)
    ∧ searchBases installedEnv
        = [wstr "C:\\bin\\"].map some ++ some (wstr "D:\\Games\\PoB")
            :: [some (wstr "C:\\Users\\u\\AppData\\Roaming\\Path of Building Community\\"),
                some (wstr "C:\\ProgramData\\Path of Building\\")]
    ∧ (∀ x ∈ [wstr "C:\\bin\\"], x ≠ []
        ∧ firstValid (validLine cRuntime installedEnv.fs) (candidates cRuntime (specNorm x))
            = none)
    ∧ wstr "D:\\Games\\PoB" ≠ []
    ∧ firstValid (validLine cRuntime installedEnv.fs)
          (candidates cRuntime (specNorm (wstr "D:\\Games\\PoB")))
        = some (wstr "D:\\Games\\PoB\\Launch.lua", cstr "#@ lua")
    ∧ InsertLaunchLua cRuntime installedEnv ⟨[wstr "exe"], [], []⟩
        = some (true, ⟨[wstr "exe", wstr "D:\\Games\\PoB\\Launch.lua"], cstr "#@ lua",
            [wstr "C:\\bin\\Launch.lua", wstr "C:\\bin\\src\\Launch.lua",
             wstr "D:\\Games\\PoB\\Launch.lua"]⟩) :=
  ⟨rfl, by simp, by decide, by decide, by decide, by decide,
    InsertLaunchLua_first_base_wins cRuntime installedEnv ⟨[wstr "exe"], [], []⟩ (wstr "exe") []
      [wstr "C:\\bin\\"] (wstr "D:\\Games\\PoB")
      [some (wstr "C:\\Users\\u\\AppData\\Roaming\\Path of Building Community\\"),
       some (wstr "C:\\ProgramData\\Path of Building\\")]
      (wstr "D:\\Games\\PoB\\Launch.lua") (cstr "#@ lua")
      rfl (by simp) (by decide) (by decide) (by decide) (by decide)⟩

/-- C7: when the command line has at least two elements and element 1 is a valid
script, `InsertLaunchLua` returns true, opens no path but element 1 (no base directory
is probed) and inserts nothing: the command line is `c0 :: c1' :: rest` as before, where
`c1'` is `c1` itself or the long path name the system gives for `c1`, the latter only if
`c1` starts with an uppercase letter, a colon and a backslash. -/
theorem InsertLaunchLua_argument_valid (R : CRuntime) (env : Env) (st : LState)
    (c0 c1 : WString) (rest : List WString) (line : CString)
    (hc : st.commandLine = c0 :: c1 :: rest)
    (hv : validLine R env.fs c1 = some line) :
    ∃ c1', InsertLaunchLua R env st
        = some (true, { commandLine := c0 :: c1' :: rest, firstLine := line,
                        probes := st.probes ++ [c1] })
      ∧ (c1' = c1 ∨ (hasDrivePrefix R c1 = true ∧ env.longPathName c1 = some c1')) := by
  unfold InsertLaunchLua checkArgument
  simp only [hc, List.length_cons, IsValidLuaFile_eq, hv, List.getD_cons_succ,
    List.getD_cons_zero]
  have hlen : rest.length + 1 + 1 > 1 := by omega
  simp only [hlen, if_true]
  by_cases hcond : c1.length > 3 ∧ R.iswupper (c1.getD 0 0) = true ∧ c1.getD 1 0 = 58
      ∧ c1.getD 2 0 = 92
  · simp only [hcond, and_self, if_true]
    cases hlong : env.longPathName c1 with
    | none => exact ⟨c1, rfl, Or.inl rfl⟩
    | some wszLongPath =>
      refine ⟨wszLongPath, rfl, Or.inr ⟨?_, rfl⟩⟩
      obtain ⟨h3, hup, h1, h2⟩ := hcond
      match c1, h3, hup, h1, h2 with
      | a :: b :: c :: d :: tl, _, hup, h1, h2 =>
        simp only [List.getD_cons_succ, List.getD_cons_zero] at hup h1 h2
        subst h1 h2
        exact hup
  · simp only [hcond, if_false]
    exact ⟨c1, rfl, Or.inl rfl⟩

/-- Witness of C7: `C:\PoB\src\Launch.lua` given as argument 1 is kept, the arguments
after it too, and only that path is opened. -/
theorem InsertLaunchLua_argument_valid_witness :
    (⟨[wstr "exe", wstr "C:\\PoB\\src\\Launch.lua", wstr "--x"], [], []⟩ : LState).commandLine
        = wstr "exe" :: wstr "C:\\PoB\\src\\Launch.lua" :: [wstr "--x"]
    ∧ validLine cRuntime { installedEnv with fs := devFs }.fs (wstr "C:\\PoB\\src\\Launch.lua")
        = some (cstr "#@ lua")
    ∧ ∃ c1', InsertLaunchLua cRuntime { installedEnv with fs := devFs }
          ⟨[wstr "exe", wstr "C:\\PoB\\src\\Launch.lua", wstr "--x"], [], []⟩
        = some (true, { commandLine := wstr "exe" :: c1' :: [wstr "--x"],
                        firstLine := cstr "#@ lua",
                        probes := [] ++ [wstr "C:\\PoB\\src\\Launch.lua"] })
      ∧ (c1' = wstr "C:\\PoB\\src\\Launch.lua"
          ∨ (hasDrivePrefix cRuntime (wstr "C:\\PoB\\src\\Launch.lua") = true
            ∧ { installedEnv with fs := devFs }.longPathName (wstr "C:\\PoB\\src\\Launch.lua")
                = some c1')) :=
  ⟨rfl, by decide,
    InsertLaunchLua_argument_valid cRuntime { installedEnv with fs := devFs }
      ⟨[wstr "exe", wstr "C:\\PoB\\src\\Launch.lua", wstr "--x"], [], []⟩
      (wstr "exe") (wstr "C:\\PoB\\src\\Launch.lua") [wstr "--x"] (cstr "#@ lua") rfl
      (by decide)⟩

/-- C8: for a non-empty command line `c0 :: rest`, `InsertPath` with a path `p` gives
`c0 :: p :: rest`, and `FindLaunchLua` on a non-empty base always returns: with true
when a candidate validates, and then the command line is `c0 :: p :: rest` for the
candidate `p` found, one element longer, element 0 unchanged, `p` at index 1 and every
former element `i ≥ 1` at index `i + 1`; with false when no candidate validates, and
then the command line is unchanged. -/
theorem FindLaunchLua_inserts_after_first (R : CRuntime) (fs : WString → FileState)
    (B : WString) (st : LState) (c0 : WString) (rest : List WString)
    (hB : B ≠ []) (hc : st.commandLine = c0 :: rest) :
    (∀ p, InsertPath st p = some (true, { st with commandLine := c0 :: p :: rest }))
    ∧ ∃ ok st', FindLaunchLua R fs B st = some (ok, st')
        ∧ (ok = true → ∃ p, p ∈ candidates R (specNorm B)
            ∧ validLine R fs p = some st'.firstLine
            ∧ st'.commandLine = c0 :: p :: rest
            ∧ st'.commandLine.length = st.commandLine.length + 1
            ∧ st'.commandLine[0]? = st.commandLine[0]?
            ∧ st'.commandLine[1]? = some p
            ∧ ∀ i, 1 ≤ i → st'.commandLine[i + 1]? = st.commandLine[i]?)
        ∧ (ok = false → st'.commandLine = st.commandLine
            ∧ ∀ p ∈ candidates R (specNorm B), validLine R fs p = none) := by
  refine ⟨fun p => by simp only [InsertPath, hc], ?_⟩
  cases hv : firstValid (validLine R fs) (candidates R (specNorm B)) with
  | none =>
    refine ⟨false, _, FindLaunchLua_fail R fs B st hB hv, by simp, ?_⟩
    intro _
    exact ⟨rfl, firstValid_none.1 hv⟩
  | some r =>
    obtain ⟨p, line⟩ := r
    refine ⟨true, _, FindLaunchLua_hit R fs B st c0 rest p line hB hc hv, ?_, by simp⟩
    intro _
    obtain ⟨h1, h2⟩ := firstValid_some hv
    refine ⟨p, h1, h2, rfl, by simp [hc], by simp [hc], by simp, ?_⟩
    intro i hi
    obtain ⟨j, rfl⟩ : ∃ j, i = j + 1 := ⟨i - 1, by omega⟩
    simp [hc]

/-- Witness of C8: the script found beside the executable is inserted between the
executable and the former arguments. -/
theorem FindLaunchLua_inserts_after_first_witness :
    wstr "D:\\Games\\PoB\\" ≠ []
    ∧ (⟨[wstr "exe", wstr "a", wstr "b"], [], []⟩ : LState).commandLine
        = wstr "exe" :: [wstr "a", wstr "b"]
    ∧ FindLaunchLua cRuntime installedFs (wstr "D:\\Games\\PoB\\")
          ⟨[wstr "exe", wstr "a", wstr "b"], [], []⟩
        = some (true, ⟨[wstr "exe", wstr "D:\\Games\\PoB\\Launch.lua", wstr "a", wstr "b"],
            cstr "#@ lua", [wstr "D:\\Games\\PoB\\Launch.lua"]⟩)
    ∧ ((∀ p, InsertPath ⟨[wstr "exe", wstr "a", wstr "b"], [], []⟩ p
          = some (true, { (⟨[wstr "exe", wstr "a", wstr "b"], [], []⟩ : LState) with
                          commandLine := wstr "exe" :: p :: [wstr "a", wstr "b"] }))
      ∧ ∃ ok st', FindLaunchLua cRuntime installedFs (wstr "D:\\Games\\PoB\\")
            ⟨[wstr "exe", wstr "a", wstr "b"], [], []⟩ = some (ok, st')
        ∧ (ok = true → ∃ p, p ∈ candidates cRuntime (specNorm (wstr "D:\\Games\\PoB\\"))
            ∧ validLine cRuntime installedFs p = some st'.firstLine
            ∧ st'.commandLine = wstr "exe" :: p :: [wstr "a", wstr "b"]
            ∧ st'.commandLine.length
                = (⟨[wstr "exe", wstr "a", wstr "b"], [], []⟩ : LState).commandLine.length + 1
            ∧ st'.commandLine[0]?
                = (⟨[wstr "exe", wstr "a", wstr "b"], [], []⟩ : LState).commandLine[0]?
            ∧ st'.commandLine[1]? = some p
            ∧ ∀ i, 1 ≤ i → st'.commandLine[i + 1]?
                = (⟨[wstr "exe", wstr "a", wstr "b"], [], []⟩ : LState).commandLine[i]?)
        ∧ (ok = false
            → st'.commandLine = (⟨[wstr "exe", wstr "a", wstr "b"], [], []⟩ : LState).commandLine
            ∧ ∀ p ∈ candidates cRuntime (specNorm (wstr "D:\\Games\\PoB\\")),
                validLine cRuntime installedFs p = none)) :=
  ⟨by decide, rfl, by decide,
    FindLaunchLua_inserts_after_first cRuntime installedFs (wstr "D:\\Games\\PoB\\")
      ⟨[wstr "exe", wstr "a", wstr "b"], [], []⟩ (wstr "exe") [wstr "a", wstr "b"]
      (by decide) rfl⟩

/-! ## Claims on the module name and on `ConvertToACP` -/

theorem findSub_eq_none_iff (needle hay : WString) :
    findSub needle hay = none ↔ ¬ needle <:+: hay := by
  induction hay with
  | nil =>
    unfold findSub
    by_cases h : needle = []
    · simp [h]
    · simp [h]
  | cons x xs ih =>
    unfold findSub
    rw [List.infix_cons_iff]
    by_cases hp : needle.isPrefixOf (x :: xs) = true
    · have hp' : needle <+: x :: xs := List.isPrefixOf_iff_prefix.1 hp
      simp [hp, hp']
    · have hp' : ¬ needle <+: x :: xs := fun h => hp (List.isPrefixOf_iff_prefix.2 h)
      simp only [hp, if_false, Option.map_eq_none', ih, hp', false_or, Bool.false_eq_true]

theorem widen_ne_zero {c : Int} (h0 : c ≠ 0) (hlo : -128 ≤ c) (hhi : c ≤ 127) :
    widen c ≠ 0 := by
  unfold widen
  omega

theorem mem_trim {R : CRuntime} {s : WString} {x : Nat} (h : x ∈ trim R s) : x ∈ s := by
  unfold trim rtrim ltrim at h
  have h1 := List.mem_reverse.1 h
  have h2 := (List.dropWhile_sublist _).mem h1
  have h3 := List.mem_reverse.1 h2
  exact (List.dropWhile_sublist _).mem h3

/-- The name computed from any line of at least two characters: the trimmed text, with
`.dll` appended when `wcsstr` does not find `.dll` in it. -/
theorem dllNameOf_eq (R : CRuntime) (fl : CString) (h2 : 2 ≤ fl.length) :
    dllNameOf R fl
      = some (if wcsstr (trim R ((fl.drop 2).map widen)) (wstr ".dll") = none
              then trim R ((fl.drop 2).map widen) ++ wstr ".dll"
              else trim R ((fl.drop 2).map widen)) := by
  unfold dllNameOf
  have : ¬ fl.length < 2 := by omega
  simp only [this, if_false]
  split <;> rfl

theorem ltrim_skip (R : CRuntime) (lead body : WString)
    (hlead : ∀ c ∈ lead, c < 128 ∧ asciiSpace c = true)
    (hhead : ∀ a, body.head? = some a → a < 128 ∧ asciiSpace a = false) :
    ltrim R (lead ++ body) = body := by
  unfold ltrim
  induction lead with
  | nil =>
    cases body with
    | nil => rfl
    | cons a tl =>
      obtain ⟨ha1, ha2⟩ := hhead a rfl
      simp only [List.nil_append, List.dropWhile_cons, R.iswspace_ascii a ha1, ha2,
        Bool.false_eq_true, if_false]
  | cons c cs ih =>
    obtain ⟨hc1, hc2⟩ := hlead c (by simp)
    simp only [List.cons_append, List.dropWhile_cons, R.iswspace_ascii c hc1, hc2, if_true]
    exact ih (fun y hy => hlead y (by simp [hy]))

theorem rtrim_keep (R : CRuntime) (body : WString)
    (hlast : ∀ a, body.getLast? = some a → a < 128 ∧ asciiSpace a = false) :
    rtrim R body = body := by
  unfold rtrim
  cases h : body.reverse with
  | nil =>
    have : body = [] := by simpa using h
    simp [this]
  | cons x xs =>
    have hl : body.getLast? = some x := by
      rw [List.getLast?_eq_head?_reverse, h]; rfl
    obtain ⟨hx1, hx2⟩ := hlast x hl
    rw [List.dropWhile_cons, R.iswspace_ascii x hx1, hx2]
    simp only [Bool.false_eq_true, if_false]
    rw [← h, List.reverse_reverse]

/-- The name computed from a line whose text after the marker is ASCII blanks `lead`
followed by `body`, which neither starts nor ends with an ASCII blank. -/
theorem dllNameOf_ascii (R : CRuntime) (fl : CString) (lead body : WString)
    (h2 : 2 ≤ fl.length) (hw : (fl.drop 2).map widen = lead ++ body)
    (hlead : ∀ c ∈ lead, c < 128 ∧ asciiSpace c = true)
    (hhead : ∀ a, body.head? = some a → a < 128 ∧ asciiSpace a = false)
    (hlast : ∀ a, body.getLast? = some a → a < 128 ∧ asciiSpace a = false) :
    dllNameOf R fl
      = some (if wcsstr body (wstr ".dll") = none then body ++ wstr ".dll" else body) := by
  rw [dllNameOf_eq R fl h2, hw, trim, ltrim_skip R lead body hlead hhead,
    rtrim_keep R body hlast]

/-- C9 as stated fails: the script line `#@a.dllx` is accepted and its module name is
`a.dllx`: nothing is appended because `.dll` occurs in the text, and `.dll` is not a
suffix of the name. -/
theorem dllNameOf_not_suffix :
    IsValidLuaFile cRuntime (fsOf [(wstr "a.lua", [35, 64, 97, 46, 100, 108, 108, 120, 10])])
        (wstr "a.lua") ⟨[wstr "exe"], [], []⟩
      = some (true, ⟨[wstr "exe"], cstr "#@a.dllx", [wstr "a.lua"]⟩)
    ∧ dllNameOf cRuntime (cstr "#@a.dllx") = some (wstr "a.dllx")
    ∧ ¬ (wstr ".dll" <:+ wstr "a.dllx") := by
  decide

/-- C9 amended: for every directive line accepted by the validator, the module name
computed in `wWinMain` is the white-space-trimmed text after the `#@` marker, with
`.dll` appended if and only if that trimmed text does not contain `.dll` anywhere;
the module name therefore always contains `.dll`.  The lines `#@lua` and `#@lua.dll`
both give `lua.dll`, and `#@ MyEngine` gives `MyEngine.dll`. -/
theorem dllNameOf_accepted (R : CRuntime) :
    (∀ (fs : WString → FileState) (path : WString) (st st' : LState),
      IsValidLuaFile R fs path st = some (true, st') →
        dllNameOf R st'.firstLine
            = some (if wstr ".dll" <:+: trim R ((st'.firstLine.drop 2).map widen)
                    then trim R ((st'.firstLine.drop 2).map widen)
                    else trim R ((st'.firstLine.drop 2).map widen) ++ wstr ".dll")
          ∧ ∀ name, dllNameOf R st'.firstLine = some name → wstr ".dll" <:+: name)
    ∧ dllNameOf R (cstr "#@lua") = some (wstr "lua.dll")
    ∧ dllNameOf R (cstr "#@lua.dll") = some (wstr "lua.dll")
    ∧ dllNameOf R (cstr "#@ MyEngine") = some (wstr "MyEngine.dll") := by
  refine ⟨?_, ?_, ?_, ?_⟩
  · intro fs path st st' hacc
    rw [IsValidLuaFile_eq] at hacc
    cases hf : fs path with
    | cannotOpen => simp [validLine, hf] at hacc
    | readFails => simp [validLine, hf] at hacc
    | contents bytes =>
      have hv : validLine R fs path = headerLine R bytes := by
        simp only [validLine, hf]
      rw [hv] at hacc
      cases hl : headerLine R bytes with
      | none => rw [hl] at hacc; simp at hacc
      | some line =>
        rw [hl] at hacc
        simp only [Option.some.injEq, Prod.mk.injEq, true_and] at hacc
        subst hacc
        simp only
        obtain ⟨ws, rest, hM, h2, h3, _, _⟩ := checkHeader_accept (headerLine_some hl)
        have hlen : 2 ≤ line.length := by
          have := congrArg List.length h2
          simp only [List.length_take, List.length_cons, List.length_nil] at this
          omega
        have hnz : ∀ x ∈ trim R ((line.drop 2).map widen), x ≠ 0 := by
          intro x hx
          obtain ⟨c, hc, rfl⟩ := List.mem_map.1 (mem_trim hx)
          have hcl : c ∈ line := List.mem_of_mem_drop hc
          have hcM : c ∈ (bytes.take 255).map toChar := by
            rw [hM]; exact List.mem_append_left _ hcl
          obtain ⟨b, _, rfl⟩ := List.mem_map.1 hcM
          exact widen_ne_zero (h3 _ hcl).2 (toChar_bounds b).1 (toChar_bounds b).2
        have htw : (trim R ((line.drop 2).map widen)).takeWhile (· ≠ 0)
            = trim R ((line.drop 2).map widen) := by
          rw [List.takeWhile_eq_self_iff]
          intro x hx
          simpa using hnz x hx
        have hiff : wcsstr (trim R ((line.drop 2).map widen)) (wstr ".dll") = none
            ↔ ¬ wstr ".dll" <:+: trim R ((line.drop 2).map widen) := by
          unfold wcsstr
          rw [htw, findSub_eq_none_iff]
        have hname : dllNameOf R line
            = some (if wstr ".dll" <:+: trim R ((line.drop 2).map widen)
                    then trim R ((line.drop 2).map widen)
                    else trim R ((line.drop 2).map widen) ++ wstr ".dll") := by
          rw [dllNameOf_eq R line hlen]
          by_cases hin : wstr ".dll" <:+: trim R ((line.drop 2).map widen)
          · have : ¬ wcsstr (trim R ((line.drop 2).map widen)) (wstr ".dll") = none :=
              fun h => (hiff.1 h) hin
            simp only [this, hin, if_true, if_false]
          · simp only [hiff.2 hin, hin, if_true, if_false]
        refine ⟨hname, ?_⟩
        intro name hn
        rw [hname] at hn
        simp only [Option.some.injEq] at hn
        subst hn
        by_cases hin : wstr ".dll" <:+: trim R ((line.drop 2).map widen)
        · simp only [hin, if_true]
        · simp only [hin, if_false]
          exact (List.suffix_append _ _).isInfix
  · have h := dllNameOf_ascii R (cstr "#@lua") [] (wstr "lua") (by decide) (by decide)
      (by simp) (by decide) (by decide)
    rw [h]; decide
  · have h := dllNameOf_ascii R (cstr "#@lua.dll") [] (wstr "lua.dll") (by decide) (by decide)
      (by simp) (by decide) (by decide)
    rw [h]; decide
  · have h := dllNameOf_ascii R (cstr "#@ MyEngine") [32] (wstr "MyEngine") (by decide)
      (by decide) (by decide) (by decide) (by decide)
    rw [h]; decide

/-- Witness of C9 amended: the script `C:\PoB\src\Launch.lua`, whose first line is
`#@ lua`, gives the module name `lua.dll`. -/
theorem dllNameOf_accepted_witness :
    IsValidLuaFile cRuntime devFs (wstr "C:\\PoB\\src\\Launch.lua") ⟨[wstr "exe"], [], []⟩
        = some (true, ⟨[wstr "exe"], cstr "#@ lua", [wstr "C:\\PoB\\src\\Launch.lua"]⟩)
    ∧ dllNameOf cRuntime (cstr "#@ lua") = some (wstr "lua.dll")
    ∧ (dllNameOf cRuntime
          (⟨[wstr "exe"], cstr "#@ lua", [wstr "C:\\PoB\\src\\Launch.lua"]⟩ : LState).firstLine
        = some (if wstr ".dll" <:+: trim cRuntime
                    (((⟨[wstr "exe"], cstr "#@ lua", [wstr "C:\\PoB\\src\\Launch.lua"]⟩
                        : LState).firstLine.drop 2).map widen)
                then trim cRuntime
                    (((⟨[wstr "exe"], cstr "#@ lua", [wstr "C:\\PoB\\src\\Launch.lua"]⟩
                        : LState).firstLine.drop 2).map widen)
                else trim cRuntime
                    (((⟨[wstr "exe"], cstr "#@ lua", [wstr "C:\\PoB\\src\\Launch.lua"]⟩
                        : LState).firstLine.drop 2).map widen) ++ wstr ".dll")
      ∧ ∀ name, dllNameOf cRuntime
          (⟨[wstr "exe"], cstr "#@ lua", [wstr "C:\\PoB\\src\\Launch.lua"]⟩ : LState).firstLine
            = some name → wstr ".dll" <:+: name) :=
  ⟨by decide, by decide,
    (dllNameOf_accepted cRuntime).1 devFs (wstr "C:\\PoB\\src\\Launch.lua")
      ⟨[wstr "exe"], [], []⟩ ⟨[wstr "exe"], cstr "#@ lua", [wstr "C:\\PoB\\src\\Launch.lua"]⟩
      (by decide)⟩

theorem foldl_push_eq_map {α β : Type} (f : α → β) (l : List α) (init : List β) :
    l.foldl (fun acc x => acc ++ [f x]) init = init ++ l.map f := by
  induction l generalizing init with
  | nil => simp
  | cons x xs ih => simp [ih]

/-- C10: `ConvertToACP` converts each argument on its own: the result is the list of
the conversions of the arguments in the same order (`map`), so it has as many elements
as the command line and its `i`-th element depends on the `i`-th argument only; the
empty command line gives the empty result. -/
theorem ConvertToACP_eq_map (A : AcpCodec) (commandLine : List WString) :
    ConvertToACP A commandLine = commandLine.map (convertParam A)
    ∧ (ConvertToACP A commandLine).length = commandLine.length
    ∧ (∀ i : Nat, (ConvertToACP A commandLine)[i]? = (commandLine[i]?).map (convertParam A))
    ∧ ConvertToACP A [] = [] := by
  have h : ConvertToACP A commandLine = commandLine.map (convertParam A) := by
    unfold ConvertToACP
    cases commandLine with
    | nil => rfl
    | cons c cs =>
      simp only [List.length_cons, Nat.zero_lt_succ, gt_iff_lt, if_true]
      rw [foldl_push_eq_map]
      rfl
  refine ⟨h, ?_, ?_, rfl⟩
  · rw [h, List.length_map]
  · intro i
    rw [h, List.getElem?_map]

/-! ## Claims on the backward scan, the normalisation and `trim` -/

theorem readHeader_marker (rest : List Byte) :
    (readHeader (35 :: 64 :: rest)).getD 0 0 = 35
      ∧ (readHeader (35 :: 64 :: rest)).getD 1 0 = 64 := by
  have h : (35 :: 64 :: rest : List Byte).take 255 = 35 :: 64 :: rest.take 253 := rfl
  unfold readHeader
  rw [h]
  constructor <;> rfl

/-- C15: for every header that passes the marker check and in which line 65 finds a
line feed, at offset `k`, the backward scan of lines 71-74 started at `k` stops at an
index `e` with `1 ≤ e ≤ k`, index 1 being that of the `@` of the marker: it never steps
before the marker, every character it skips is a line feed, a carriage return or white
space, and the header is accepted with the line that ends at `e`. -/
theorem trimBack_stops_at_marker (R : CRuntime) (rest : List Byte) (fl : CString) (k : Nat)
    (hlf : strchr (readHeader (35 :: 64 :: rest)) 10 = some k) :
    ∃ e, trimBack R (readHeader (35 :: 64 :: rest)) k = some e ∧ 1 ≤ e ∧ e ≤ k
      ∧ (∀ i, e < i → i ≤ k
          → isTrailing R ((readHeader (35 :: 64 :: rest)).getD i 0) = true)
      ∧ checkHeader R (35 :: 64 :: rest) fl
          = some (true, (readHeader (35 :: 64 :: rest)).take (e + 1)) := by
  obtain ⟨hm0, hm1⟩ := readHeader_marker rest
  obtain ⟨_, hk2, _⟩ := strchr_some hlf
  have hk : 1 ≤ k := by
    rcases Nat.eq_zero_or_pos k with h0 | h0
    · subst h0; rw [hm0] at hk2; cases hk2
    · exact h0
  obtain ⟨e, he1, he2, he3, _, he5⟩ :=
    trimBack_spec R (readHeader (35 :: 64 :: rest)) 1 (by rw [hm1]; exact isTrailing_at R) k hk
  refine ⟨e, he1, he2, he3, he5, ?_⟩
  rw [checkHeader_eq]
  have hm : ¬ ((readHeader (35 :: 64 :: rest)).getD 0 0 ≠ 35
      ∨ (readHeader (35 :: 64 :: rest)).getD 1 0 ≠ 64) := by
    rw [hm0, hm1]; simp
  rw [if_neg hm]
  simp only [hlf, he1]

/-- Witness of C15: in the header `#@`, blank, CR, LF the scan starts at offset 4 and
stops at offset 1, on the `@`. -/
theorem trimBack_stops_at_marker_witness :
    strchr (readHeader (35 :: 64 :: [32, 13, 10])) 10 = some 4
    ∧ trimBack cRuntime (readHeader (35 :: 64 :: [32, 13, 10])) 4 = some 1
    ∧ ∃ e, trimBack cRuntime (readHeader (35 :: 64 :: [32, 13, 10])) 4 = some e ∧ 1 ≤ e ∧ e ≤ 4
      ∧ (∀ i, e < i → i ≤ 4
          → isTrailing cRuntime ((readHeader (35 :: 64 :: [32, 13, 10])).getD i 0) = true)
      ∧ checkHeader cRuntime (35 :: 64 :: [32, 13, 10]) []
          = some (true, (readHeader (35 :: 64 :: [32, 13, 10])).take (e + 1)) :=
  ⟨by decide, by decide,
    trimBack_stops_at_marker cRuntime [32, 13, 10] [] 4 (by decide)⟩

theorem probed_cons (valid : WString → Option CString) (x : WString) (l : List WString) :
    ∃ more, probed valid (x :: l) = x :: more ∧ ∀ p ∈ more, p ∈ l := by
  unfold probed
  cases valid x with
  | some _ => exact ⟨[], rfl, by simp⟩
  | none =>
    refine ⟨probed valid l, rfl, ?_⟩
    intro p hp
    induction l with
    | nil => simp [probed] at hp
    | cons y ys ih =>
      unfold probed at hp
      cases hy : valid y with
      | some _ =>
        simp only [hy, List.mem_singleton] at hp
        simp [hp]
      | none =>
        simp only [hy, List.mem_cons] at hp
        rcases hp with hp | hp
        · simp [hp]
        · exact List.mem_cons_of_mem _ (ih hp)

theorem not_mem_specNorm (B : WString) : (47 : Nat) ∉ specNorm B := by
  have hu : (47 : Nat) ∉ B.map (fun c => if c = 47 then 92 else c) := by
    intro h
    obtain ⟨c, _, hc⟩ := List.mem_map.1 h
    by_cases h47 : c = 47
    · simp [h47] at hc
    · simp only [h47, if_false] at hc
  unfold specNorm
  simp only
  split
  · intro h
    exact hu (List.mem_of_mem_dropLast h)
  · exact hu

/-- C16: for a non-empty base `B`, lines 108-121 compute `norm(B)`: `B` with every `/`
replaced by `\` and then, if the result ends with `\`, without that one last character
(a second trailing `\` stays); `norm(B)` holds no `/`.  On a non-empty command line
`FindLaunchLua` returns, the first path it probes is `norm(B)` followed by
`\Launch.lua`, which holds no `/`, and each further probe is a candidate of `norm(B)`. -/
theorem FindLaunchLua_probes_normalised (R : CRuntime) (fs : WString → FileState)
    (B : WString) (st : LState) (c0 : WString) (rest : List WString)
    (hB : B ≠ []) (hc : st.commandLine = c0 :: rest) :
    normalise B = some (specNorm B)
    ∧ (∀ v, B.map (fun c => if c = 47 then 92 else c) = v ++ [92] → specNorm B = v)
    ∧ ((B.map (fun c => if c = 47 then 92 else c)).getLast? ≠ some 92
        → specNorm B = B.map (fun c => if c = 47 then 92 else c))
    ∧ (47 : Nat) ∉ specNorm B
    ∧ (47 : Nat) ∉ specNorm B ++ wstr "\\Launch.lua"
    ∧ ∃ ok st' more, FindLaunchLua R fs B st = some (ok, st')
        ∧ st'.probes = st.probes ++ (specNorm B ++ wstr "\\Launch.lua") :: more
        ∧ ∀ p ∈ more, p ∈ candidates R (specNorm B) := by
  refine ⟨normalise_eq B hB, ?_, ?_, not_mem_specNorm B, ?_, ?_⟩
  · intro v hv
    unfold specNorm
    simp only [hv, List.getLast?_append, List.getLast?_singleton, List.dropLast_concat]
    rfl
  · intro h
    unfold specNorm
    simp only [h, if_false]
  · intro h
    rcases List.mem_append.1 h with h | h
    · exact not_mem_specNorm B h
    · revert h; decide
  · have hcand : ∃ l, candidates R (specNorm B) = (specNorm B ++ wstr "\\Launch.lua") :: l := by
      unfold candidates
      exact ⟨_, rfl⟩
    obtain ⟨l, hl⟩ := hcand
    cases hv : firstValid (validLine R fs) (candidates R (specNorm B)) with
    | none =>
      refine ⟨false, _, l, FindLaunchLua_fail R fs B st hB hv, ?_, ?_⟩
      · simp only [hl]
      · intro p hp
        rw [hl]; exact List.mem_cons_of_mem _ hp
    | some r =>
      obtain ⟨p, line⟩ := r
      obtain ⟨more, hm1, hm2⟩ := probed_cons (validLine R fs)
        (specNorm B ++ wstr "\\Launch.lua") l
      refine ⟨true, _, more, FindLaunchLua_hit R fs B st c0 rest p line hB hc hv, ?_, ?_⟩
      · simp only [hl, hm1]
      · intro q hq
        rw [hl]; exact List.mem_cons_of_mem _ (hm2 q hq)

/-- Witness of C16: the base `C:/PoB//` becomes `C:\PoB\`, one of the two trailing
separators being kept. -/
theorem FindLaunchLua_probes_normalised_witness :
    wstr "C:/PoB//" ≠ []
    ∧ (⟨[wstr "exe"], [], []⟩ : LState).commandLine = wstr "exe" :: []
    ∧ specNorm (wstr "C:/PoB//") = wstr "C:\\PoB\\"
    ∧ (normalise (wstr "C:/PoB//") = some (specNorm (wstr "C:/PoB//"))
      ∧ (∀ v, (wstr "C:/PoB//").map (fun c => if c = 47 then 92 else c) = v ++ [92]
          → specNorm (wstr "C:/PoB//") = v)
      ∧ (((wstr "C:/PoB//").map (fun c => if c = 47 then 92 else c)).getLast? ≠ some 92
          → specNorm (wstr "C:/PoB//")
              = (wstr "C:/PoB//").map (fun c => if c = 47 then 92 else c))
      ∧ (47 : Nat) ∉ specNorm (wstr "C:/PoB//")
      ∧ (47 : Nat) ∉ specNorm (wstr "C:/PoB//") ++ wstr "\\Launch.lua"
      ∧ ∃ ok st' more, FindLaunchLua cRuntime devFs (wstr "C:/PoB//") ⟨[wstr "exe"], [], []⟩
            = some (ok, st')
          ∧ st'.probes = (⟨[wstr "exe"], [], []⟩ : LState).probes
              ++ (specNorm (wstr "C:/PoB//") ++ wstr "\\Launch.lua") :: more
          ∧ ∀ p ∈ more, p ∈ candidates cRuntime (specNorm (wstr "C:/PoB//"))) :=
  ⟨by decide, rfl, by decide,
    FindLaunchLua_probes_normalised cRuntime devFs (wstr "C:/PoB//") ⟨[wstr "exe"], [], []⟩
      (wstr "exe") [] (by decide) rfl⟩

theorem head?_dropWhile_false {α : Type} (p : α → Bool) (l : List α) (a : α)
    (h : (l.dropWhile p).head? = some a) : p a = false := by
  induction l with
  | nil => simp at h
  | cons x xs ih =>
    rw [List.dropWhile_cons] at h
    by_cases hx : p x = true
    · rw [if_pos hx] at h; exact ih h
    · rw [if_neg hx] at h
      simp only [List.head?_cons, Option.some.injEq] at h
      subst h
      simpa using hx

theorem dropWhile_keep {α : Type} (p : α → Bool) (l : List α)
    (h : ∀ a, l.head? = some a → p a = false) : l.dropWhile p = l := by
  cases l with
  | nil => rfl
  | cons x xs =>
    have hx := h x rfl
    rw [List.dropWhile_cons, hx]
    simp

/-- Trimming with any predicate `p`, as `ltrim` followed by `rtrim` do it. -/
theorem trim_generic {α : Type} (p : α → Bool) (s : List α) :
    (∃ pre post, s = pre ++ ((s.dropWhile p).reverse.dropWhile p).reverse ++ post
        ∧ (∀ c ∈ pre, p c = true) ∧ (∀ c ∈ post, p c = true))
    ∧ (∀ a, (((s.dropWhile p).reverse.dropWhile p).reverse).head? = some a → p a = false)
    ∧ (∀ a, (((s.dropWhile p).reverse.dropWhile p).reverse).getLast? = some a → p a = false)
    ∧ (((((s.dropWhile p).reverse.dropWhile p).reverse).dropWhile p).reverse.dropWhile p).reverse
        = ((s.dropWhile p).reverse.dropWhile p).reverse := by
  have hlast : ∀ a, (((s.dropWhile p).reverse.dropWhile p).reverse).getLast? = some a
      → p a = false := by
    intro a ha
    rw [List.getLast?_reverse] at ha
    exact head?_dropWhile_false p _ a ha
  have hsplit : s.dropWhile p = ((s.dropWhile p).reverse.dropWhile p).reverse
      ++ ((s.dropWhile p).reverse.takeWhile p).reverse := by
    rw [← List.reverse_append, List.takeWhile_append_dropWhile, List.reverse_reverse]
  have hhead : ∀ a, (((s.dropWhile p).reverse.dropWhile p).reverse).head? = some a
      → p a = false := by
    intro a ha
    apply head?_dropWhile_false p s a
    rw [hsplit, List.head?_append, ha]
    rfl
  refine ⟨⟨s.takeWhile p, ((s.dropWhile p).reverse.takeWhile p).reverse, ?_, ?_, ?_⟩,
    hhead, hlast, ?_⟩
  · rw [List.append_assoc, ← hsplit, List.takeWhile_append_dropWhile]
  · intro c hc
    exact List.mem_takeWhile_imp hc
  · intro c hc
    exact List.mem_takeWhile_imp (List.mem_reverse.1 hc)
  · rw [dropWhile_keep p _ hhead]
    exact dropWhile_reverse_keep hlast

/-- C17: for every string `s`, wide or narrow, `trim(s)` is a contiguous part of `s`
with only white-space characters removed before and after it (`s = p ++ trim(s) ++ q`
with `p` and `q` all white space), `trim(s)` neither begins nor ends with a white-space
character (so it is empty or begins and ends with other characters), and `trim` is
idempotent. -/
theorem trim_spec (R : CRuntime) :
    (∀ s : WString,
      (∃ p q, s = p ++ trim R s ++ q
        ∧ (∀ c ∈ p, R.iswspace c = true) ∧ (∀ c ∈ q, R.iswspace c = true))
      ∧ (∀ a, (trim R s).head? = some a → R.iswspace a = false)
      ∧ (∀ a, (trim R s).getLast? = some a → R.iswspace a = false)
      ∧ trim R (trim R s) = trim R s)
    ∧ (∀ s : CString,
      (∃ p q, s = p ++ trimA R s ++ q
        ∧ (∀ c ∈ p, isspaceUChar R c = true) ∧ (∀ c ∈ q, isspaceUChar R c = true))
      ∧ (∀ a, (trimA R s).head? = some a → isspaceUChar R a = false)
      ∧ (∀ a, (trimA R s).getLast? = some a → isspaceUChar R a = false)
      ∧ trimA R (trimA R s) = trimA R s) :=
  ⟨fun s => trim_generic R.iswspace s, fun s => trim_generic (isspaceUChar R) s⟩

/-! ## Claims on `SafeHandle` -/

theorem validCount_append (a b : List (Option SafeHandle)) :
    validCount (a ++ b) = validCount a + validCount b := by
  induction a with
  | nil => simp [validCount]
  | cons x xs ih =>
    cases x with
    | none => simpa [validCount] using ih
    | some s => simp [validCount, ih, Nat.add_assoc]

theorem validCount_set (objs : List (Option SafeHandle)) (i : Nat) (s t : SafeHandle)
    (h : objs.getD i none = some s) :
    validCount (objs.set i (some t)) + (if s.IsValid then 1 else 0)
      = validCount objs + (if t.IsValid then 1 else 0) := by
  induction objs generalizing i with
  | nil => simp at h
  | cons x xs ih =>
    cases i with
    | zero =>
      simp only [List.getD_cons_zero] at h
      subst h
      simp only [List.set_cons_zero, validCount]
      omega
    | succ j =>
      simp only [List.getD_cons_succ] at h
      have := ih j h
      cases x with
      | none => simpa [validCount] using this
      | some u =>
        simp only [List.set_cons_succ, validCount]
        omega

theorem validCount_set_none (objs : List (Option SafeHandle)) (i : Nat) (s : SafeHandle)
    (h : objs.getD i none = some s) :
    validCount (objs.set i none) + (if s.IsValid then 1 else 0) = validCount objs := by
  induction objs generalizing i with
  | nil => simp at h
  | cons x xs ih =>
    cases i with
    | zero =>
      simp only [List.getD_cons_zero] at h
      subst h
      simp only [List.set_cons_zero, validCount]
      omega
    | succ j =>
      simp only [List.getD_cons_succ] at h
      have := ih j h
      cases x with
      | none => simpa [validCount] using this
      | some u =>
        simp only [List.set_cons_succ, validCount]
        omega

theorem mem_set_some {objs : List (Option SafeHandle)} {i : Nat} {t u : SafeHandle}
    (h : some u ∈ objs.set i (some t)) : u = t ∨ some u ∈ objs := by
  rcases List.mem_or_eq_of_mem_set h with h | h
  · exact Or.inr h
  · exact Or.inl (Option.some.inj h)

theorem invalid_not_valid :
    ({ m_hHandle := INVALID_HANDLE_VALUE } : SafeHandle).IsValid = false := by decide

theorem step_target {w w' : HandleWorld} {i : Nat}
    {f : SafeHandle → HandleWorld}
    (hstep : (match w.objects.getD i none with
              | none => none
              | some s => some (f s)) = some w') :
    ∃ s, w.objects.getD i none = some s ∧ some s ∈ w.objects ∧ w' = f s := by
  cases hi : w.objects.getD i none with
  | none => rw [hi] at hstep; cases hstep
  | some s =>
    rw [hi] at hstep
    refine ⟨s, rfl, ?_, (Option.some.inj hstep).symm⟩
    rw [List.getD_eq_getElem?_getD] at hi
    cases hg : w.objects[i]? with
    | none => rw [hg] at hi; cases hi
    | some o =>
      rw [hg] at hi
      have : o = some s := hi
      rw [this] at hg
      exact List.getElem?_mem hg

/-- The invariant of a family of objects that started from one object holding `h`:
every live object holds `h` or `INVALID_HANDLE_VALUE`, only `h` was ever closed, and
the closed handles and the valid objects together number exactly one (none when `h`
is `INVALID_HANDLE_VALUE`). -/
theorem HandleWorld.step_invariant (h : Int) (w w' : HandleWorld) (op : HandleOp)
    (hstep : w.step op = some w')
    (hobj : ∀ s, some s ∈ w.objects → s.m_hHandle = h ∨ s.m_hHandle = INVALID_HANDLE_VALUE)
    (hclosed : ∀ x ∈ w.closed, x = h ∧ x ≠ INVALID_HANDLE_VALUE)
    (hcount : w.closed.length + validCount w.objects
      = if h = INVALID_HANDLE_VALUE then 0 else 1) :
    (∀ s, some s ∈ w'.objects → s.m_hHandle = h ∨ s.m_hHandle = INVALID_HANDLE_VALUE)
    ∧ (∀ x ∈ w'.closed, x = h ∧ x ≠ INVALID_HANDLE_VALUE)
    ∧ w'.closed.length + validCount w'.objects
      = if h = INVALID_HANDLE_VALUE then 0 else 1 := by
  generalize hN : (if h = INVALID_HANDLE_VALUE then 0 else 1) = N at hcount ⊢
  cases op with
  | close i =>
    obtain ⟨s, hi, hs, rfl⟩ := step_target (f := fun s =>
      { objects := w.objects.set i (some s.Close.1), closed := w.closed ++ s.Close.2 }) hstep
    have hset := validCount_set w.objects i s s.Close.1 hi
    by_cases hv : s.IsValid = true
    · have hne : s.m_hHandle ≠ INVALID_HANDLE_VALUE := by
        simpa [SafeHandle.IsValid] using hv
      have hsh : s.m_hHandle = h := by
        rcases hobj s hs with e | e
        · exact e
        · exact absurd e hne
      simp only [SafeHandle.Close, hv, if_true, invalid_not_valid, Bool.false_eq_true,
        if_false] at hset ⊢
      refine ⟨?_, ?_, ?_⟩
      · intro u hu
        rcases mem_set_some hu with e | e
        · right; rw [e]
        · exact hobj u e
      · intro x hx
        rcases List.mem_append.1 hx with e | e
        · exact hclosed x e
        · simp only [List.mem_singleton] at e
          rw [e]; exact ⟨hsh, hne⟩
      · simp only [List.length_append, List.length_singleton]
        omega
    · have hv' : s.IsValid = false := by simpa using hv
      simp only [SafeHandle.Close, hv', Bool.false_eq_true, if_false,
        List.append_nil] at hset ⊢
      refine ⟨?_, ?_, ?_⟩
      · intro u hu
        rcases mem_set_some hu with e | e
        · rw [e]; exact hobj s hs
        · exact hobj u e
      · exact hclosed
      · omega
  | moveConstruct i =>
    obtain ⟨s, hi, hs, rfl⟩ := step_target (f := fun o =>
      { objects := w.objects.set i (some o.moveConstruct.2) ++ [some o.moveConstruct.1],
        closed := w.closed }) hstep
    have hset := validCount_set w.objects i s s.moveConstruct.2 hi
    simp only [SafeHandle.moveConstruct, invalid_not_valid, Bool.false_eq_true,
      if_false] at hset ⊢
    refine ⟨?_, hclosed, ?_⟩
    · intro u hu
      rcases List.mem_append.1 hu with e | e
      · rcases mem_set_some e with e | e
        · right; rw [e]
        · exact hobj u e
      · simp only [List.mem_singleton, Option.some.injEq] at e
        rw [e]; exact hobj s hs
    · rw [validCount_append]
      have hv : ({ m_hHandle := s.m_hHandle } : SafeHandle).IsValid = s.IsValid := rfl
      simp only [validCount, hv]
      omega
  | destroy i =>
    obtain ⟨s, hi, hs, rfl⟩ := step_target (f := fun s =>
      { objects := w.objects.set i none, closed := w.closed ++ s.destroy }) hstep
    have hset := validCount_set_none w.objects i s hi
    by_cases hv : s.IsValid = true
    · have hne : s.m_hHandle ≠ INVALID_HANDLE_VALUE := by
        simpa [SafeHandle.IsValid] using hv
      have hsh : s.m_hHandle = h := by
        rcases hobj s hs with e | e
        · exact e
        · exact absurd e hne
      simp only [SafeHandle.destroy, SafeHandle.Close, hv, if_true] at hset ⊢
      refine ⟨?_, ?_, ?_⟩
      · intro u hu
        rcases List.mem_or_eq_of_mem_set hu with e | e
        · exact hobj u e
        · cases e
      · intro x hx
        rcases List.mem_append.1 hx with e | e
        · exact hclosed x e
        · simp only [List.mem_singleton] at e
          rw [e]; exact ⟨hsh, hne⟩
      · simp only [List.length_append, List.length_singleton]
        omega
    · have hv' : s.IsValid = false := by simpa using hv
      simp only [SafeHandle.destroy, SafeHandle.Close, hv', Bool.false_eq_true, if_false,
        List.append_nil] at hset ⊢
      refine ⟨?_, ?_, ?_⟩
      · intro u hu
        rcases List.mem_or_eq_of_mem_set hu with e | e
        · exact hobj u e
        · cases e
      · exact hclosed
      · omega

theorem HandleWorld.run_invariant (h : Int) (ops : List HandleOp) (w w' : HandleWorld)
    (hrun : w.run ops = some w')
    (hobj : ∀ s, some s ∈ w.objects → s.m_hHandle = h ∨ s.m_hHandle = INVALID_HANDLE_VALUE)
    (hclosed : ∀ x ∈ w.closed, x = h ∧ x ≠ INVALID_HANDLE_VALUE)
    (hcount : w.closed.length + validCount w.objects
      = if h = INVALID_HANDLE_VALUE then 0 else 1) :
    (∀ s, some s ∈ w'.objects → s.m_hHandle = h ∨ s.m_hHandle = INVALID_HANDLE_VALUE)
    ∧ (∀ x ∈ w'.closed, x = h ∧ x ≠ INVALID_HANDLE_VALUE)
    ∧ w'.closed.length + validCount w'.objects
      = if h = INVALID_HANDLE_VALUE then 0 else 1 := by
  induction ops generalizing w with
  | nil =>
    simp only [HandleWorld.run, Option.some.injEq] at hrun
    subst hrun
    exact ⟨hobj, hclosed, hcount⟩
  | cons op ops ih =>
    simp only [HandleWorld.run] at hrun
    cases hs : w.step op with
    | none => simp [hs] at hrun
    | some w1 =>
      simp only [hs] at hrun
      obtain ⟨h1, h2, h3⟩ := HandleWorld.step_invariant h w w1 op hs hobj hclosed hcount
      exact ih w1 hrun h1 h2 h3

theorem Close_of_invalid (t : SafeHandle) (ht : t.IsValid = false) : t.Close = (t, []) := by
  unfold SafeHandle.Close
  rw [ht]
  rfl

theorem validCount_dead (objs : List (Option SafeHandle)) (h : ∀ o ∈ objs, o = none) :
    validCount objs = 0 := by
  induction objs with
  | nil => rfl
  | cons x xs ih =>
    have hx : x = none := h x (by simp)
    subst hx
    simp only [validCount]
    exact ih (fun o ho => h o (by simp [ho]))

/-- C18: start from one `SafeHandle` constructed from the handle `h` and apply any
sequence of `Close()` calls, move constructions and destructions to it and to the
objects moved from it.  `CloseHandle` is called at most once, and only with `h`; at
most one object is valid at any time and none once the handle has been closed; when
every object has been destroyed a valid `h` has been closed exactly once.  After
`Close()`, and after being moved from, `IsValid()` is false and a further `Close()` or
the destructor calls `CloseHandle` no more. -/
theorem SafeHandle_closes_once (h : Int) (ops : List HandleOp) (w : HandleWorld)
    (hrun : HandleWorld.run { objects := [some { m_hHandle := h }], closed := [] } ops
      = some w) :
    w.closed.length ≤ 1
    ∧ (∀ x ∈ w.closed, x = h)
    ∧ w.closed.count h ≤ 1
    ∧ validCount w.objects ≤ 1
    ∧ (w.closed ≠ [] → validCount w.objects = 0)
    ∧ ((∀ o ∈ w.objects, o = none) → h ≠ INVALID_HANDLE_VALUE → w.closed = [h])
    ∧ (∀ s : SafeHandle, s.Close.1.IsValid = false ∧ s.Close.1.Close.2 = []
        ∧ s.Close.1.destroy = [] ∧ s.moveConstruct.2.IsValid = false
        ∧ s.moveConstruct.2.Close.2 = [] ∧ s.moveConstruct.2.destroy = []) := by
  have h0 : ([] : List Int).length + validCount [some ({ m_hHandle := h } : SafeHandle)]
      = if h = INVALID_HANDLE_VALUE then 0 else 1 := by
    simp only [List.length_nil, validCount, SafeHandle.IsValid, bne_iff_ne, ne_eq, ite_not]
    split <;> rfl
  obtain ⟨_, h2, h3⟩ := HandleWorld.run_invariant h ops _ w hrun
    (by
      intro s hs
      simp only [List.mem_singleton, Option.some.injEq] at hs
      left; rw [hs])
    (by simp) h0
  have hlen : w.closed.length ≤ 1 := by
    split at h3 <;> omega
  refine ⟨hlen, fun x hx => (h2 x hx).1, le_trans (List.count_le_length _ _) hlen, ?_, ?_, ?_,
    ?_⟩
  · split at h3 <;> omega
  · intro hne
    have : 0 < w.closed.length := List.length_pos.2 hne
    split at h3 <;> omega
  · intro hdead hvalid
    rw [validCount_dead _ hdead, if_neg hvalid] at h3
    match hc : w.closed, h3 with
    | [x], _ =>
      have := (h2 x (by rw [hc]; simp)).1
      rw [this]
  · intro s
    have hc : s.Close.1.IsValid = false := by
      unfold SafeHandle.Close
      split
      · exact invalid_not_valid
      · simpa using ‹¬ s.IsValid = true›
    have hm : s.moveConstruct.2.IsValid = false := invalid_not_valid
    refine ⟨hc, ?_, ?_, hm, ?_, ?_⟩
    · rw [Close_of_invalid _ hc]
    · rw [SafeHandle.destroy, Close_of_invalid _ hc]
    · rw [Close_of_invalid _ hm]
    · rw [SafeHandle.destroy, Close_of_invalid _ hm]

/-- Witness of C18: the handle 5 is moved to a second object, which is closed twice and
destroyed, then the first object is destroyed: `CloseHandle(5)` happens once. -/
theorem SafeHandle_closes_once_witness :
    HandleWorld.run { objects := [some { m_hHandle := 5 }], closed := [] }
        [HandleOp.moveConstruct 0, HandleOp.close 1, HandleOp.close 1, HandleOp.destroy 1,
         HandleOp.destroy 0]
      = some { objects := [none, none], closed := [5] }
    ∧ ([5] : List Int).length ≤ 1
    ∧ (∀ x ∈ ([5] : List Int), x = 5)
    ∧ ([5] : List Int).count 5 ≤ 1
    ∧ validCount [none, none] ≤ 1
    ∧ (([5] : List Int) ≠ [] → validCount [none, none] = 0)
    ∧ ((∀ o ∈ ([none, none] : List (Option SafeHandle)), o = none)
        → (5 : Int) ≠ INVALID_HANDLE_VALUE → ([5] : List Int) = [5])
    ∧ (∀ s : SafeHandle, s.Close.1.IsValid = false ∧ s.Close.1.Close.2 = []
        ∧ s.Close.1.destroy = [] ∧ s.moveConstruct.2.IsValid = false
        ∧ s.moveConstruct.2.Close.2 = [] ∧ s.moveConstruct.2.destroy = []) :=
  ⟨by decide,
    SafeHandle_closes_once 5
      [HandleOp.moveConstruct 0, HandleOp.close 1, HandleOp.close 1, HandleOp.destroy 1,
       HandleOp.destroy 0]
      { objects := [none, none], closed := [5] } (by decide)⟩

/-! ## Lemmas on the packing of the arguments -/

theorem sizeSum_cons (p : CString) (ps : List CString) :
    sizeSum (p :: ps) = (p.length + 1) + sizeSum ps := by
  simp [sizeSum]

theorem sizeSum_append (a b : List CString) : sizeSum (a ++ b) = sizeSum a + sizeSum b := by
  simp [sizeSum]

theorem totalParamSize_eq (ps : List CString) : totalParamSize ps = sizeSum ps := by
  have h : ∀ (init : Nat) (l : List CString),
      l.foldl (fun t (param : CString) => t + (param.length + 1)) init = init + sizeSum l := by
    intro init l
    induction l generalizing init with
    | nil => simp [sizeSum]
    | cons p ps ih =>
      rw [List.foldl_cons, ih, sizeSum_cons]
      omega
  unfold totalParamSize
  rw [h]
  omega

theorem packed_length (ps : List CString) : (packed ps).length = sizeSum ps := by
  induction ps with
  | nil => rfl
  | cons p ps ih =>
    rw [sizeSum_cons]
    simp only [packed, List.length_append, List.length_cons, ih]
    omega

theorem memcpyAt_front (pre data : List Int) (m : Nat) :
    memcpyAt (pre ++ List.replicate (data.length + m) 0) pre.length data
      = some (pre ++ data ++ List.replicate m 0) := by
  unfold memcpyAt
  have hle : pre.length + data.length ≤ (pre ++ List.replicate (data.length + m) 0).length := by
    simp only [List.length_append, List.length_replicate]
    omega
  rw [if_pos hle]
  congr 1
  rw [List.take_left, List.drop_append, List.drop_replicate]
  congr 2
  omega

theorem fillParams_eq (ps : List CString) (pre : List Int) (pp : List Nat) :
    fillParams ps (pre ++ List.replicate (sizeSum ps) 0) pre.length pp
      = some (pre ++ packed ps, pp ++ offsetsFrom pre.length ps) := by
  induction ps generalizing pre pp with
  | nil => simp [fillParams, sizeSum, packed, offsetsFrom]
  | cons p ps ih =>
    unfold fillParams
    have hsz : sizeSum (p :: ps) = (p ++ [0]).length + sizeSum ps := by
      rw [sizeSum_cons]; simp
    rw [hsz, memcpyAt_front]
    simp only
    have hlen : pre.length + (p.length + 1) = (pre ++ (p ++ [0])).length := by
      simp only [List.length_append, List.length_singleton]
    rw [hlen, ih]
    simp only [packed, offsetsFrom, List.append_assoc, List.singleton_append, List.cons_append,
      List.nil_append, List.length_append, List.length_singleton, List.length_cons,
      List.length_nil]

theorem offsetsFrom_length (o : Nat) (ps : List CString) :
    (offsetsFrom o ps).length = ps.length := by
  induction ps generalizing o with
  | nil => rfl
  | cons p ps ih => simp [offsetsFrom, ih]

theorem offsetsFrom_get (o : Nat) (ps : List CString) (i : Nat) (hi : i < ps.length) :
    (offsetsFrom o ps)[i]? = some (o + sizeSum (ps.take i)) := by
  induction ps generalizing o i with
  | nil => simp at hi
  | cons p ps ih =>
    cases i with
    | zero => simp [offsetsFrom, sizeSum]
    | succ j =>
      simp only [offsetsFrom, List.getElem?_cons_succ, List.take_succ_cons]
      rw [ih _ j (by simpa using hi), sizeSum_cons]
      congr 1
      omega

theorem packed_entry (ps : List CString) (i : Nat) (p : CString) (hp : ps[i]? = some p) :
    ((packed ps).drop (sizeSum (ps.take i))).take (p.length + 1) = p ++ [0] := by
  induction ps generalizing i with
  | nil => simp at hp
  | cons q qs ih =>
    cases i with
    | zero =>
      simp only [List.getElem?_cons_zero, Option.some.injEq] at hp
      subst hp
      simp only [List.take_zero, sizeSum, List.map_nil, List.sum_nil, List.drop_zero, packed]
      have : q ++ 0 :: packed qs = (q ++ [0]) ++ packed qs := by simp
      rw [this, List.take_left' (by simp)]
    | succ j =>
      simp only [List.getElem?_cons_succ] at hp
      simp only [List.take_succ_cons, sizeSum_cons, packed]
      have : q ++ 0 :: packed qs = (q ++ [0]) ++ packed qs := by simp
      have hl : q.length + 1 + sizeSum (List.take j qs)
          = (q ++ [0]).length + sizeSum (List.take j qs) := by simp
      rw [this, hl, List.drop_append]
      exact ih j hp

theorem sizeSum_take_succ (ps : List CString) (i : Nat) (p : CString) (hp : ps[i]? = some p) :
    sizeSum (ps.take (i + 1)) = sizeSum (ps.take i) + (p.length + 1) := by
  rw [List.take_succ, hp, sizeSum_append]
  simp [sizeSum]

theorem sizeSum_take_le (ps : List CString) (a b : Nat) (h : a ≤ b) :
    sizeSum (ps.take a) ≤ sizeSum (ps.take b) := by
  obtain ⟨d, rfl⟩ : ∃ d, b = a + d := ⟨b - a, by omega⟩
  rw [List.take_add, sizeSum_append]
  omega

theorem sizeSum_take_le_all (ps : List CString) (a : Nat) :
    sizeSum (ps.take a) ≤ sizeSum ps := by
  have := sizeSum_take_le ps a (max a ps.length) (le_max_left _ _)
  rwa [List.take_of_length_le (le_max_right _ _)] at this

/-- Lines 341-365 on a command line with at least one element: the first element is
dropped and the others are packed one after the other. -/
theorem marshal_eq (A : AcpCodec) (c0 : WString) (rest : List WString) :
    marshal A (c0 :: rest)
      = some { argc := rest.length, buffer := packed (rest.map (convertParam A)),
               argv := offsetsFrom 0 (rest.map (convertParam A)) } := by
  have hconv : ConvertToACP A (c0 :: rest)
      = convertParam A c0 :: rest.map (convertParam A) := by
    unfold ConvertToACP
    simp only [List.length_cons, Nat.zero_lt_succ, gt_iff_lt, if_true]
    rw [foldl_push_eq_map]
    rfl
  unfold marshal
  rw [hconv]
  simp only
  rw [totalParamSize_eq]
  have h := fillParams_eq (rest.map (convertParam A)) [] []
  simp only [List.nil_append, List.length_nil] at h
  rw [h]
  simp only [List.length_map]

/-! ## Lemmas on `wWinMain` -/

theorem validLine_marker {R : CRuntime} {fs : WString → FileState} {p : WString}
    {line : CString} (h : validLine R fs p = some line) :
    line.take 2 = [35, 64] ∧ 2 ≤ line.length := by
  unfold validLine at h
  cases hf : fs p with
  | cannotOpen => simp [hf] at h
  | readFails => simp [hf] at h
  | contents bytes =>
    simp only [hf] at h
    obtain ⟨_, _, _, h2, _⟩ := checkHeader_accept (headerLine_some h)
    refine ⟨h2, ?_⟩
    have := congrArg List.length h2
    simp only [List.length_take, List.length_cons, List.length_nil] at this
    omega

theorem FindLaunchLua_nil (R : CRuntime) (fs : WString → FileState) (st : LState) :
    FindLaunchLua R fs [] st = none := rfl

theorem FindLaunchLua_true {R : CRuntime} {fs : WString → FileState} {B : WString}
    {st st' : LState} (h : FindLaunchLua R fs B st = some (true, st')) :
    ∃ c0 p rest, st.commandLine = c0 :: rest ∧ st'.commandLine = c0 :: p :: rest
      ∧ validLine R fs p = some st'.firstLine := by
  by_cases hB : B = []
  · rw [hB, FindLaunchLua_nil] at h; cases h
  rw [FindLaunchLua_eq R fs B st hB, locate] at h
  cases hv : firstValid (validLine R fs) (candidates R (specNorm B)) with
  | none => rw [hv] at h; simp at h
  | some r =>
    obtain ⟨p, line⟩ := r
    rw [hv] at h
    simp only [InsertPath] at h
    cases hc : st.commandLine with
    | nil => rw [hc] at h; cases h
    | cons c0 rest =>
      rw [hc] at h
      simp only [Option.some.injEq, Prod.mk.injEq, true_and] at h
      subst h
      exact ⟨c0, p, rest, rfl, rfl, (firstValid_some hv).2⟩

theorem FindLaunchLua_false {R : CRuntime} {fs : WString → FileState} {B : WString}
    {st st' : LState} (h : FindLaunchLua R fs B st = some (false, st')) :
    st'.commandLine = st.commandLine ∧ st'.firstLine = st.firstLine := by
  by_cases hB : B = []
  · rw [hB, FindLaunchLua_nil] at h; cases h
  rw [FindLaunchLua_eq R fs B st hB, locate] at h
  cases hv : firstValid (validLine R fs) (candidates R (specNorm B)) with
  | none =>
    rw [hv] at h
    simp only [Option.some.injEq, Prod.mk.injEq, true_and] at h
    subst h
    exact ⟨rfl, rfl⟩
  | some r =>
    obtain ⟨p, line⟩ := r
    rw [hv] at h
    simp only [InsertPath] at h
    cases hc : st.commandLine with
    | nil => rw [hc] at h; cases h
    | cons c0 rest => rw [hc] at h; simp at h

theorem searchFrom_true {R : CRuntime} {fs : WString → FileState}
    {bases : List (Option WString)} {st st' : LState}
    (h : searchFrom R fs bases st = some (true, st')) :
    ∃ c0 p rest, st.commandLine = c0 :: rest ∧ st'.commandLine = c0 :: p :: rest
      ∧ validLine R fs p = some st'.firstLine := by
  induction bases generalizing st with
  | nil => simp [searchFrom] at h
  | cons b bs ih =>
    cases b with
    | none => simp [searchFrom] at h
    | some B =>
      simp only [searchFrom] at h
      cases hf : FindLaunchLua R fs B st with
      | none => simp [hf] at h
      | some r =>
        obtain ⟨ok, st1⟩ := r
        cases ok with
        | true =>
          simp only [hf, Option.some.injEq, Prod.mk.injEq, true_and] at h
          subst h
          exact FindLaunchLua_true hf
        | false =>
          simp only [hf] at h
          obtain ⟨c0, p, rest, h1, h2, h3⟩ := ih h
          exact ⟨c0, p, rest, by rw [← (FindLaunchLua_false hf).1, h1], h2, h3⟩

theorem checkArgument_result {R : CRuntime} {env : Env} {st st1 : LState} {ok : Bool}
    (h : checkArgument R env st = some (ok, st1)) :
    (ok = true → ∃ c0 c1 c1' rest, st.commandLine = c0 :: c1 :: rest
        ∧ st1.commandLine = c0 :: c1' :: rest ∧ validLine R env.fs c1 = some st1.firstLine)
    ∧ (ok = false → st1.commandLine = st.commandLine ∧ st1.firstLine = st.firstLine) := by
  unfold checkArgument at h
  by_cases hlen : st.commandLine.length > 1
  · simp only [hlen, if_true, IsValidLuaFile_eq] at h
    match hc : st.commandLine, hlen with
    | c0 :: c1 :: rest, _ =>
      simp only [hc, List.getD_cons_succ, List.getD_cons_zero] at h
      cases hv : validLine R env.fs c1 with
      | none =>
        simp only [hv, Option.some.injEq, Prod.mk.injEq] at h
        obtain ⟨rfl, rfl⟩ := h
        exact ⟨by simp, fun _ => ⟨rfl, rfl⟩⟩
      | some line =>
        have e1 : (c0 :: c1 :: rest).getD 1 [] = c1 := rfl
        simp only [hv, e1] at h
        by_cases hcond : c1.length > 3 ∧ R.iswupper (c1.getD 0 0) = true ∧ c1.getD 1 0 = 58
            ∧ c1.getD 2 0 = 92
        · simp only [hcond, and_self, if_true] at h
          cases hl : env.longPathName c1 with
          | none =>
            simp only [hl, Option.some.injEq, Prod.mk.injEq] at h
            obtain ⟨rfl, rfl⟩ := h
            exact ⟨fun _ => ⟨c0, c1, c1, rest, rfl, rfl, hv⟩, by simp⟩
          | some long =>
            simp only [hl, Option.some.injEq, Prod.mk.injEq] at h
            obtain ⟨rfl, rfl⟩ := h
            exact ⟨fun _ => ⟨c0, c1, long, rest, rfl, rfl, hv⟩, by simp⟩
        · simp only [hcond, if_false, Option.some.injEq, Prod.mk.injEq] at h
          obtain ⟨rfl, rfl⟩ := h
          exact ⟨fun _ => ⟨c0, c1, c1, rest, rfl, rfl, hv⟩, by simp⟩
  · simp only [hlen, if_false, Option.some.injEq, Prod.mk.injEq] at h
    obtain ⟨rfl, rfl⟩ := h
    exact ⟨by simp, fun _ => ⟨rfl, rfl⟩⟩

/-- After a successful discovery the command line holds the executable, the script and
the previous arguments, `firstLine` is the directive line of some valid script, and the
command line was not empty before. -/
theorem InsertLaunchLua_true {R : CRuntime} {env : Env} {st st' : LState}
    (h : InsertLaunchLua R env st = some (true, st')) :
    ∃ c0 script rest p, st'.commandLine = c0 :: script :: rest
      ∧ validLine R env.fs p = some st'.firstLine ∧ st.commandLine ≠ [] := by
  cases hc : checkArgument R env st with
  | none => simp [InsertLaunchLua, hc] at h
  | some r =>
    obtain ⟨ok, st1⟩ := r
    cases ok with
    | true =>
      simp only [InsertLaunchLua, hc, Option.some.injEq, Prod.mk.injEq, true_and] at h
      subst h
      obtain ⟨c0, c1, c1', rest, h1, h2, h3⟩ := (checkArgument_result hc).1 rfl
      exact ⟨c0, c1', rest, c1, h2, h3, by rw [h1]; simp⟩
    | false =>
      rw [InsertLaunchLua_search R env st st1 hc] at h
      obtain ⟨c0, p, rest, h1, h2, h3⟩ := searchFrom_true h
      refine ⟨c0, p, rest, p, h2, h3, ?_⟩
      rw [← ((checkArgument_result hc).2 rfl).1, h1]
      simp

theorem InsertLaunchLua_false {R : CRuntime} {env : Env} {st st' : LState}
    (h : InsertLaunchLua R env st = some (false, st')) :
    st'.commandLine = st.commandLine ∧ st'.firstLine = st.firstLine := by
  cases hc : checkArgument R env st with
  | none => simp [InsertLaunchLua, hc] at h
  | some r =>
    obtain ⟨ok, st1⟩ := r
    cases ok with
    | true => simp [InsertLaunchLua, hc] at h
    | false =>
      rw [InsertLaunchLua_search R env st st1 hc] at h
      obtain ⟨h1, h2⟩ := (checkArgument_result hc).2 rfl
      rw [← h1, ← h2]
      clear hc h1 h2
      generalize searchBases env = bases at h
      induction bases generalizing st1 with
      | nil =>
        simp only [searchFrom, Option.some.injEq, Prod.mk.injEq, true_and] at h
        subst h
        exact ⟨rfl, rfl⟩
      | cons b bs ih =>
        cases b with
        | none => simp [searchFrom] at h
        | some B =>
          simp only [searchFrom] at h
          cases hf : FindLaunchLua R env.fs B st1 with
          | none => simp [hf] at h
          | some r =>
            obtain ⟨ok, st2⟩ := r
            cases ok with
            | true => simp [hf] at h
            | false =>
              simp only [hf] at h
              obtain ⟨e1, e2⟩ := FindLaunchLua_false hf
              obtain ⟨i1, i2⟩ := ih st2 h
              exact ⟨by rw [i1, e1], by rw [i2, e2]⟩

/-- The run of `wWinMain` after a successful discovery: nothing is out of bounds and
the calls are those of `dispatch`. -/
theorem wWinMain_found (R : CRuntime) (os : Os) (st : LState)
    (h : InsertLaunchLua R os.env
      { commandLine := os.commandLine, firstLine := [], probes := [] } = some (true, st)) :
    ∃ c0 script rest dllName args, st.commandLine = c0 :: script :: rest
      ∧ dllNameOf R st.firstLine = some dllName
      ∧ marshal os.acp st.commandLine = some args
      ∧ wWinMain R os = some (dispatch os script dllName args) := by
  obtain ⟨c0, script, rest, p, hc, hv, _⟩ := InsertLaunchLua_true h
  have hdll := dllNameOf_eq R st.firstLine (validLine_marker hv).2
  have hm := marshal_eq os.acp c0 (script :: rest)
  rw [← hc] at hm
  refine ⟨c0, script, rest, _, _, hc, hdll, hm, ?_⟩
  have h1 : st.commandLine[1]? = some script := by rw [hc]; simp
  unfold wWinMain
  simp only [h, hdll, h1, hm]
  unfold dispatch
  cases hl : os.loadLibrary _ with
  | none => simp [InitConsole]
  | some hDLL =>
    simp only
    cases hw : os.getProcAddress hDLL "RunLuaFileAsWin" with
    | some f => simp
    | none =>
      simp only
      cases hcon : os.getProcAddress hDLL "RunLuaFileAsConsole" with
      | some f => simp [InitConsole]
      | none => simp [InitConsole]

theorem wWinMain_not_found (R : CRuntime) (os : Os) (st : LState)
    (h : InsertLaunchLua R os.env
      { commandLine := os.commandLine, firstLine := [], probes := [] } = some (false, st)) :
    wWinMain R os = some (1, [Event.allocConsole,
      Event.wprintf "ERROR: Could not find a valid launcher lua file."]) := by
  unfold wWinMain
  simp only [h]
  rfl

theorem dispatch_freed (os : Os) (script dllName : WString) (args : EntryArgs) :
    freed (dispatch os script dllName args).2 = (os.loadLibrary dllName).toList
    ∧ ∀ hDLL, os.loadLibrary dllName = some hDLL →
        (dispatch os script dllName args).2.getLast? = some (Event.freeLibrary hDLL) := by
  unfold dispatch
  cases hl : os.loadLibrary dllName with
  | none =>
    refine ⟨?_, fun _ h => by cases h⟩
    by_cases hd : isDevScript script = true <;> simp [freed, hd]
  | some hDLL =>
    simp only
    cases hw : os.getProcAddress hDLL "RunLuaFileAsWin" with
    | some f =>
      refine ⟨?_, fun _ h => by
        cases h
        by_cases hd : isDevScript script = true <;> simp [hd]⟩
      by_cases hd : isDevScript script = true <;> simp [freed, hd]
    | none =>
      simp only
      cases hcon : os.getProcAddress hDLL "RunLuaFileAsConsole" with
      | some f =>
        refine ⟨?_, fun _ h => by
        cases h
        by_cases hd : isDevScript script = true <;> simp [hd]⟩
        by_cases hd : isDevScript script = true <;> simp [freed, hd]
      | none =>
        refine ⟨?_, fun _ h => by
        cases h
        by_cases hd : isDevScript script = true <;> simp [hd]⟩
        by_cases hd : isDevScript script = true <;> simp [freed, hd]

theorem dispatch_loaded (os : Os) (script dllName : WString) (args : EntryArgs) :
    loaded (dispatch os script dllName args).2
      = (if isDevScript script then [wstr "lua51.dll"] else []) ++ [dllName] := by
  unfold dispatch
  cases hl : os.loadLibrary dllName with
  | none => by_cases hd : isDevScript script = true <;> simp [loaded, hd]
  | some hDLL =>
    simp only
    cases hw : os.getProcAddress hDLL "RunLuaFileAsWin" with
    | some f => by_cases hd : isDevScript script = true <;> simp [loaded, hd]
    | none =>
      simp only
      cases hcon : os.getProcAddress hDLL "RunLuaFileAsConsole" with
      | some f => by_cases hd : isDevScript script = true <;> simp [loaded, hd]
      | none => by_cases hd : isDevScript script = true <;> simp [loaded, hd]

theorem find_last_of_mem {s : WString} {c i : Nat} (h : find_last_of s c = some i) : c ∈ s := by
  have h1 := (find_last_of_some h).1
  rw [h1]
  simp

theorem folderName_eq (p : WString) : folderName p = containingFolder p := by
  unfold folderName containingFolder
  cases hf : find_last_of p 92 with
  | none =>
    have hn : (92 : Nat) ∉ p := find_last_of_none hf
    simp only [hf, hn, if_false]
    rw [finalSegment_of_none hf]
  | some i =>
    have hm : (92 : Nat) ∈ p := find_last_of_mem hf
    simp only [hm, if_true, (finalSegment_of_some hf).2]
    cases hg : find_last_of (p.take i) 92 with
    | none => rw [finalSegment_of_none hg]
    | some j => rw [(finalSegment_of_some hg).1]

/-! ## Claims on `wWinMain`, `isDevScript` and the registry base -/

/-- C11: for a command line `c0 :: rest` (length `n ≥ 1`) lines 341-365 succeed and the
entry point gets the argument count `n - 1` and as many entries in `argv`; entry `i` is
at the offset `sum over j < i of (len j + 1)` of the packed buffer, where the
conversion of `rest[i]`, that is of argument `i + 1` of the command line, is stored
followed by a NUL; the buffer has `sum of (len i + 1)` bytes, every entry lies inside it
and an entry ends before a later one begins.  Argument 0 is not passed. -/
theorem marshal_layout (A : AcpCodec) (c0 : WString) (rest : List WString) :
    ∃ args, marshal A (c0 :: rest) = some args
      ∧ args.argc = (c0 :: rest).length - 1
      ∧ args.argv.length = args.argc
      ∧ args.buffer.length = sizeSum (rest.map (convertParam A))
      ∧ args.buffer = packed (rest.map (convertParam A))
      ∧ (∀ (i : Nat) (w : WString), rest[i]? = some w →
          args.argv[i]? = some (sizeSum ((rest.take i).map (convertParam A)))
          ∧ (args.buffer.drop (sizeSum ((rest.take i).map (convertParam A)))).take
                ((convertParam A w).length + 1)
              = convertParam A w ++ [0]
          ∧ sizeSum ((rest.take i).map (convertParam A)) + ((convertParam A w).length + 1)
              ≤ args.buffer.length)
      ∧ (∀ (i j : Nat) (w : WString) (oi oj : Nat), i < j → rest[i]? = some w →
          args.argv[i]? = some oi → args.argv[j]? = some oj →
          oi + ((convertParam A w).length + 1) ≤ oj) := by
  refine ⟨_, marshal_eq A c0 rest, by simp, ?_, ?_, rfl, ?_, ?_⟩
  · simp only [offsetsFrom_length, List.length_map]
  · simp only [packed_length]
  · intro i w hw
    have hlt : i < rest.length := by
      rcases Nat.lt_or_ge i rest.length with h | h
      · exact h
      · rw [List.getElem?_eq_none h] at hw; cases hw
    have hw' : (rest.map (convertParam A))[i]? = some (convertParam A w) := by
      rw [List.getElem?_map, hw]; rfl
    have hoff := offsetsFrom_get 0 (rest.map (convertParam A)) i (by simpa using hlt)
    rw [Nat.zero_add, ← List.map_take] at hoff
    refine ⟨hoff, ?_, ?_⟩
    · have := packed_entry (rest.map (convertParam A)) i (convertParam A w) hw'
      rw [← List.map_take] at this
      exact this
    · have h1 := sizeSum_take_succ (rest.map (convertParam A)) i (convertParam A w) hw'
      have h2 := sizeSum_take_le_all (rest.map (convertParam A)) (i + 1)
      simp only [← List.map_take] at h1 h2
      simp only [packed_length]
      omega
  · intro i j w oi oj hij hw hi hj
    have hw' : (rest.map (convertParam A))[i]? = some (convertParam A w) := by
      rw [List.getElem?_map, hw]; rfl
    have hjl : j < (rest.map (convertParam A)).length := by
      rcases Nat.lt_or_ge j (offsetsFrom 0 (rest.map (convertParam A))).length with h | h
      · rwa [offsetsFrom_length] at h
      · simp only at hj
        rw [List.getElem?_eq_none h] at hj; cases hj
    simp only at hi hj
    rw [offsetsFrom_get 0 _ i (by omega)] at hi
    rw [offsetsFrom_get 0 _ j hjl] at hj
    simp only [Nat.zero_add, Option.some.injEq] at hi hj
    have h1 := sizeSum_take_succ (rest.map (convertParam A)) i (convertParam A w) hw'
    have h2 := sizeSum_take_le (rest.map (convertParam A)) (i + 1) j (by omega)
    omega

/-- C12: `wWinMain` as a function of the outcomes.  When the discovery fails it returns
1 and `LoadLibrary` is not called.  When the discovery succeeds it returns 1 if the
module named by the directive line does not load, 1 if the module loads and exports
neither `RunLuaFileAsWin` nor `RunLuaFileAsConsole`, and otherwise exactly the value
`r` that the entry point (the first of the two symbols that resolves) returns. -/
theorem wWinMain_exit_status (R : CRuntime) (os : Os) :
    (∀ st, InsertLaunchLua R os.env
        { commandLine := os.commandLine, firstLine := [], probes := [] } = some (false, st) →
      ∃ log, wWinMain R os = some (1, log) ∧ loaded log = [])
    ∧ (∀ st, InsertLaunchLua R os.env
        { commandLine := os.commandLine, firstLine := [], probes := [] } = some (true, st) →
      ∃ dllName args, dllNameOf R st.firstLine = some dllName
        ∧ marshal os.acp st.commandLine = some args
        ∧ (os.loadLibrary dllName = none → ∃ log, wWinMain R os = some (1, log))
        ∧ (∀ hDLL, os.loadLibrary dllName = some hDLL →
            os.getProcAddress hDLL "RunLuaFileAsWin" = none →
            os.getProcAddress hDLL "RunLuaFileAsConsole" = none →
            ∃ log, wWinMain R os = some (1, log))
        ∧ (∀ hDLL RunLuaFile r, os.loadLibrary dllName = some hDLL →
            (os.getProcAddress hDLL "RunLuaFileAsWin" = some RunLuaFile
              ∨ (os.getProcAddress hDLL "RunLuaFileAsWin" = none
                ∧ os.getProcAddress hDLL "RunLuaFileAsConsole" = some RunLuaFile)) →
            RunLuaFile args = r →
            ∃ log, wWinMain R os = some (r, log))) := by
  constructor
  · intro st h
    exact ⟨_, wWinMain_not_found R os st h, rfl⟩
  · intro st h
    obtain ⟨c0, script, rest, dllName, args, _, hdll, hm, hw⟩ := wWinMain_found R os st h
    refine ⟨dllName, args, hdll, hm, ?_, ?_, ?_⟩
    · intro hl
      rw [hw]
      simp only [dispatch, hl]
      exact ⟨_, rfl⟩
    · intro hDLL hl h1 h2
      rw [hw]
      simp only [dispatch, hl, h1, h2]
      exact ⟨_, rfl⟩
    · intro hDLL f r hl hsym hr
      rw [hw]
      rcases hsym with h1 | ⟨h1, h2⟩
      · simp only [dispatch, hl, h1, hr]
        exact ⟨_, rfl⟩
      · simp only [dispatch, hl, h1, h2, hr]
        exact ⟨_, rfl⟩

/-- Witness of C12: in `sampleOs` the script is found in the registry base, `lua.dll`
loads and its entry point returns 42, which is the exit status. -/
theorem wWinMain_exit_status_witness :
    InsertLaunchLua cRuntime sampleOs.env
        { commandLine := sampleOs.commandLine, firstLine := [], probes := [] }
      = some (true, ⟨[wstr "exe", wstr "D:\\Games\\PoB\\Launch.lua", wstr "--x"], cstr "#@ lua",
          [wstr "--x", wstr "C:\\bin\\Launch.lua", wstr "C:\\bin\\src\\Launch.lua",
           wstr "D:\\Games\\PoB\\Launch.lua"]⟩)
    ∧ (wWinMain cRuntime sampleOs).map Prod.fst = some 42
    ∧ ∃ dllName args, dllNameOf cRuntime (cstr "#@ lua") = some dllName
        ∧ marshal sampleOs.acp [wstr "exe", wstr "D:\\Games\\PoB\\Launch.lua", wstr "--x"]
            = some args
        ∧ (sampleOs.loadLibrary dllName = none → ∃ log, wWinMain cRuntime sampleOs = some (1, log))
        ∧ (∀ hDLL, sampleOs.loadLibrary dllName = some hDLL →
            sampleOs.getProcAddress hDLL "RunLuaFileAsWin" = none →
            sampleOs.getProcAddress hDLL "RunLuaFileAsConsole" = none →
            ∃ log, wWinMain cRuntime sampleOs = some (1, log))
        ∧ (∀ hDLL RunLuaFile r, sampleOs.loadLibrary dllName = some hDLL →
            (sampleOs.getProcAddress hDLL "RunLuaFileAsWin" = some RunLuaFile
              ∨ (sampleOs.getProcAddress hDLL "RunLuaFileAsWin" = none
                ∧ sampleOs.getProcAddress hDLL "RunLuaFileAsConsole" = some RunLuaFile)) →
            RunLuaFile args = r →
            ∃ log, wWinMain cRuntime sampleOs = some (r, log)) :=
  ⟨by decide, by decide,
    (wWinMain_exit_status cRuntime sampleOs).2
      ⟨[wstr "exe", wstr "D:\\Games\\PoB\\Launch.lua", wstr "--x"], cstr "#@ lua",
        [wstr "--x", wstr "C:\\bin\\Launch.lua", wstr "C:\\bin\\src\\Launch.lua",
         wstr "D:\\Games\\PoB\\Launch.lua"]⟩ (by decide)⟩

/-- C13: on every run of `wWinMain` that finds a script, `FreeLibrary` is called exactly
once, with the handle of the module named by the directive line and as the last call
before returning, when that module loads (whether an entry symbol resolves or not), and
is not called at all when the load fails; it is not called either when no script is
found. -/
theorem wWinMain_frees_once (R : CRuntime) (os : Os) :
    (∀ st, InsertLaunchLua R os.env
        { commandLine := os.commandLine, firstLine := [], probes := [] } = some (false, st) →
      ∃ status log, wWinMain R os = some (status, log) ∧ freed log = [])
    ∧ (∀ st, InsertLaunchLua R os.env
        { commandLine := os.commandLine, firstLine := [], probes := [] } = some (true, st) →
      ∃ dllName status log, dllNameOf R st.firstLine = some dllName
        ∧ wWinMain R os = some (status, log)
        ∧ (os.loadLibrary dllName = none → freed log = [])
        ∧ (∀ hDLL, os.loadLibrary dllName = some hDLL →
            freed log = [hDLL] ∧ log.getLast? = some (Event.freeLibrary hDLL))) := by
  constructor
  · intro st h
    exact ⟨_, _, wWinMain_not_found R os st h, rfl⟩
  · intro st h
    obtain ⟨c0, script, rest, dllName, args, _, hdll, _, hw⟩ := wWinMain_found R os st h
    obtain ⟨h1, h2⟩ := dispatch_freed os script dllName args
    refine ⟨dllName, (dispatch os script dllName args).1, (dispatch os script dllName args).2,
      hdll, hw, ?_, ?_⟩
    · intro hl
      rw [h1, hl]; rfl
    · intro hDLL hl
      refine ⟨?_, h2 hDLL hl⟩
      rw [h1, hl]; rfl

/-- Witness of C13: in `sampleOs` the module 7 is loaded and freed once, last. -/
theorem wWinMain_frees_once_witness :
    InsertLaunchLua cRuntime sampleOs.env
        { commandLine := sampleOs.commandLine, firstLine := [], probes := [] }
      = some (true, ⟨[wstr "exe", wstr "D:\\Games\\PoB\\Launch.lua", wstr "--x"], cstr "#@ lua",
          [wstr "--x", wstr "C:\\bin\\Launch.lua", wstr "C:\\bin\\src\\Launch.lua",
           wstr "D:\\Games\\PoB\\Launch.lua"]⟩)
    ∧ (wWinMain cRuntime sampleOs).map (fun r => freed r.2) = some [7]
    ∧ ∃ dllName status log, dllNameOf cRuntime (cstr "#@ lua") = some dllName
        ∧ wWinMain cRuntime sampleOs = some (status, log)
        ∧ (sampleOs.loadLibrary dllName = none → freed log = [])
        ∧ (∀ hDLL, sampleOs.loadLibrary dllName = some hDLL →
            freed log = [hDLL] ∧ log.getLast? = some (Event.freeLibrary hDLL)) :=
  ⟨by decide, by decide,
    (wWinMain_frees_once cRuntime sampleOs).2
      ⟨[wstr "exe", wstr "D:\\Games\\PoB\\Launch.lua", wstr "--x"], cstr "#@ lua",
        [wstr "--x", wstr "C:\\bin\\Launch.lua", wstr "C:\\bin\\src\\Launch.lua",
         wstr "D:\\Games\\PoB\\Launch.lua"]⟩ (by decide)⟩

/-- C14 as stated fails: for `C:\PoB\src\Launch.lua` the directory two levels above the
script file is `PoB`, yet `isDevScript` returns true; for `C:\src\x\Launch.lua` that
directory is `src`, yet `isDevScript` returns false. -/
theorem isDevScript_not_grandparent :
    isDevScript (wstr "C:\\PoB\\src\\Launch.lua") = true
    ∧ grandparentFolder (wstr "C:\\PoB\\src\\Launch.lua") = wstr "PoB"
    ∧ wstr "PoB" ≠ wstr "src"
    ∧ isDevScript (wstr "C:\\src\\x\\Launch.lua") = false
    ∧ grandparentFolder (wstr "C:\\src\\x\\Launch.lua") = wstr "src" := by
  decide

/-- C14 amended: `isDevScript(p)` returns true exactly when the directory that holds the
script, one level above the script file (the last backslash-separated segment of `p`
without its file name; `p` itself when it has no backslash), is literally named `src`;
and on every run of `wWinMain` that finds a script, `LoadLibrary` is called for
`lua51.dll`, before the load of the main module, exactly when `isDevScript` holds of
the script path. -/
theorem isDevScript_containing_folder (R : CRuntime) (os : Os) :
    (∀ p, isDevScript p = true ↔ containingFolder p = wstr "src")
    ∧ (∀ st, InsertLaunchLua R os.env
        { commandLine := os.commandLine, firstLine := [], probes := [] } = some (true, st) →
      ∃ c0 script rest dllName status log, st.commandLine = c0 :: script :: rest
        ∧ dllNameOf R st.firstLine = some dllName
        ∧ wWinMain R os = some (status, log)
        ∧ loaded log = (if isDevScript script then [wstr "lua51.dll"] else []) ++ [dllName]) := by
  constructor
  · intro p
    unfold isDevScript
    rw [folderName_eq]
    simp
  · intro st h
    obtain ⟨c0, script, rest, dllName, args, hc, hdll, _, hw⟩ := wWinMain_found R os st h
    exact ⟨c0, script, rest, dllName, (dispatch os script dllName args).1,
      (dispatch os script dllName args).2, hc, hdll, hw,
      dispatch_loaded os script dllName args⟩

/-- Witness of C14 amended: started on the development checkout with the script as
argument 1, `wWinMain` loads `lua51.dll` and then `lua.dll`. -/
theorem isDevScript_containing_folder_witness :
    InsertLaunchLua cRuntime devOs.env
        { commandLine := devOs.commandLine, firstLine := [], probes := [] }
      = some (true, ⟨[wstr "exe", wstr "C:\\PoB\\src\\Launch.lua"], cstr "#@ lua",
          [wstr "C:\\PoB\\src\\Launch.lua"]⟩)
    ∧ (wWinMain cRuntime devOs).map (fun r => loaded r.2)
        = some [wstr "lua51.dll", wstr "lua.dll"]
    ∧ ∃ c0 script rest dllName status log,
        (⟨[wstr "exe", wstr "C:\\PoB\\src\\Launch.lua"], cstr "#@ lua",
          [wstr "C:\\PoB\\src\\Launch.lua"]⟩ : LState).commandLine = c0 :: script :: rest
        ∧ dllNameOf cRuntime (cstr "#@ lua") = some dllName
        ∧ wWinMain cRuntime devOs = some (status, log)
        ∧ loaded log = (if isDevScript script then [wstr "lua51.dll"] else []) ++ [dllName] :=
  ⟨by decide, by decide,
    (isDevScript_containing_folder cRuntime devOs).2
      ⟨[wstr "exe", wstr "C:\\PoB\\src\\Launch.lua"], cstr "#@ lua",
        [wstr "C:\\PoB\\src\\Launch.lua"]⟩ (by decide)⟩

/-- C19: whenever `InsertLaunchLua` returns true, the command line it was given was not
empty, the command line now has at least two elements and `firstLine` has at least two
characters and begins with `#@`; so `firstLine.begin() + 2` (the module name is
computed), `commandLine[1]` and the `erase` of the first converted argument (the
arguments are packed) are all in bounds. -/
theorem InsertLaunchLua_true_in_bounds (R : CRuntime) (env : Env) (A : AcpCodec)
    (st st' : LState) (h : InsertLaunchLua R env st = some (true, st')) :
    st.commandLine ≠ []
    ∧ 2 ≤ st'.commandLine.length
    ∧ 2 ≤ st'.firstLine.length
    ∧ st'.firstLine.take 2 = [35, 64]
    ∧ (∃ dllName, dllNameOf R st'.firstLine = some dllName)
    ∧ (∃ script, st'.commandLine[1]? = some script)
    ∧ ConvertToACP A st'.commandLine ≠ []
    ∧ (∃ args, marshal A st'.commandLine = some args) := by
  obtain ⟨c0, script, rest, p, hc, hv, hne⟩ := InsertLaunchLua_true h
  obtain ⟨hm, hl⟩ := validLine_marker hv
  refine ⟨hne, by rw [hc]; simp, hl, hm, ⟨_, dllNameOf_eq R st'.firstLine hl⟩,
    ⟨script, by rw [hc]; simp⟩, ?_, ⟨_, by rw [hc]; exact marshal_eq A c0 (script :: rest)⟩⟩
  intro hnil
  have hm := marshal_eq A c0 (script :: rest)
  rw [← hc] at hm
  unfold marshal at hm
  rw [hnil] at hm
  cases hm

/-- Witness of C19: the installation `installedEnv` started as `exe`. -/
theorem InsertLaunchLua_true_in_bounds_witness :
    InsertLaunchLua cRuntime installedEnv ⟨[wstr "exe"], [], []⟩
      = some (true, ⟨[wstr "exe", wstr "D:\\Games\\PoB\\Launch.lua"], cstr "#@ lua",
          [wstr "C:\\bin\\Launch.lua", wstr "C:\\bin\\src\\Launch.lua",
           wstr "D:\\Games\\PoB\\Launch.lua"]⟩)
    ∧ ((⟨[wstr "exe"], [], []⟩ : LState).commandLine ≠ []
      ∧ 2 ≤ [wstr "exe", wstr "D:\\Games\\PoB\\Launch.lua"].length
      ∧ 2 ≤ (cstr "#@ lua").length
      ∧ (cstr "#@ lua").take 2 = [35, 64]
      ∧ (∃ dllName, dllNameOf cRuntime (cstr "#@ lua") = some dllName)
      ∧ (∃ script, [wstr "exe", wstr "D:\\Games\\PoB\\Launch.lua"][1]? = some script)
      ∧ ConvertToACP asciiCodec [wstr "exe", wstr "D:\\Games\\PoB\\Launch.lua"] ≠ []
      ∧ (∃ args, marshal asciiCodec [wstr "exe", wstr "D:\\Games\\PoB\\Launch.lua"]
          = some args)) :=
  ⟨by decide,
    InsertLaunchLua_true_in_bounds cRuntime installedEnv asciiCodec ⟨[wstr "exe"], [], []⟩
      ⟨[wstr "exe", wstr "D:\\Games\\PoB\\Launch.lua"], cstr "#@ lua",
        [wstr "C:\\bin\\Launch.lua", wstr "C:\\bin\\src\\Launch.lua",
         wstr "D:\\Games\\PoB\\Launch.lua"]⟩ (by decide)⟩

/-- C20 (the code does not do this): the registry value made of one quote character
passes the size check (4 bytes with its terminator) and line 211 builds the string from
the range `[wszValue + 1, wszValue + 0)`, whose begin is after its end; the value made of
two quote characters (6 bytes) gives the empty base path, for which `FindLaunchLua`
reads `basePath[size - 1]` out of bounds.  In both cases `InsertLaunchLua` has no defined
result when no script lies beside the executable. -/
theorem registryBase_quotes_only :
    registryBase (registryEnv (wstr "\"" ++ [0]) 4) = some none
    ∧ ptrRange (wstr "\"" ++ [0]) 1 0 = none
    ∧ registryBase (registryEnv (wstr "\"\"" ++ [0]) 6) = some (some [])
    ∧ normalise [] = none
    ∧ FindLaunchLua cRuntime installedFs [] ⟨[wstr "exe"], [], []⟩ = none
    ∧ InsertLaunchLua cRuntime (registryEnv (wstr "\"" ++ [0]) 4) ⟨[wstr "exe"], [], []⟩ = none
    ∧ InsertLaunchLua cRuntime (registryEnv (wstr "\"\"" ++ [0]) 6) ⟨[wstr "exe"], [], []⟩
        = none := by
  decide

end Launcher
